import Mathlib

/-!
A verification development for pepclean.

Shallow embedding of `pepclean.c` (Walter Doekes, 2014).

* A file is the list of its bytes (`List Nat`); byte values used by the
  program: NUL = 0, TAB = 9, LF = 10, CR = 13, space = 32.
* A stream opened for sequential reading is the list of bytes that are
  still unread; `fseek(in, 0L, SEEK_SET)` makes that the whole file.
* `BUFSIZ` comes from `<stdio.h>` and is a parameter of every function
  that declares a `BUFSIZ`-sized buffer.
* Reads, seeks inside the file, writes, `truncate`, `unlink` and `rename`
  succeed; the error returns that depend on the file contents alone
  (`EINVAL` on seeking before the start, short reads) are kept.  The
  detectors also have a variant with failing seeks and reads
  (`has_line_issues_io`, `has_tail_issues_io`), which agrees with the plain
  one when nothing fails.
* Loops that the C code runs until a `return`/`break` take a fuel
  argument; `none` means the fuel ran out and is never a C return value.
-/

namespace Pepclean

/-! Stdio primitives -/

/-- The copying loop of `fgets`: store at most `k` bytes of the stream,
stopping after a LF.  Result: the bytes stored in the buffer (before the
terminating NUL that `fgets` appends) and the unread rest of the stream. -/
def fgets_copy : List Nat → Nat → List Nat × List Nat
  | [], _ => ([], [])
  | c :: rest, 0 => ([], c :: rest)
  | c :: rest, k + 1 =>
    if c = 10 then ([c], rest)
    else (c :: (fgets_copy rest k).1, (fgets_copy rest k).2)

/-- The call `fgets(buf, n, in)`: `none` is the NULL returned at end of file when
no byte could be read; otherwise at most `n - 1` bytes are stored. -/
def fgets (n : Nat) (stream : List Nat) : Option (List Nat × List Nat) :=
  match stream with
  | [] => none
  | _ :: _ => some (fgets_copy stream (n - 1))

/-- The call `strlen(buf)` on a buffer holding `buf` followed by the NUL written by
`fgets`: the number of bytes before the first NUL. -/
def strlen : List Nat → Nat
  | [] => 0
  | c :: cs => if c = 0 then 0 else strlen cs + 1

/-! Has_line_issues -/

/-- The inner `while (*p != 0)` loop of `has_line_issues`: `none` when a CR
or TAB is met (the function returns 1), otherwise `some (p - buf)`, the
offset of the first NUL. -/
def scan_crtab : List Nat → Option Nat
  | [] => some 0
  | c :: cs =>
    if c = 0 then some 0
    else if c = 13 ∨ c = 9 then none
    else (scan_crtab cs).map (· + 1)

/-- The `while (1)` loop of `has_line_issues`. -/
def has_line_issues_loop (BUFSIZ : Nat) : Nat → List Nat → Option Int
  | 0, _ => none
  | fuel + 1, stream =>
    match fgets BUFSIZ stream with
    | none => some 0
    | some (buf, rest) =>
      match scan_crtab buf with
      | none => some 1
      | some p =>
        if p = 0 then some 1
        else if buf.getD (p - 1) 0 ≠ 10 then some 1
        else if p - 1 > 0 ∧ buf.getD (p - 2) 0 = 32 then some 1
        else has_line_issues_loop BUFSIZ fuel rest

/-- The detector `has_line_issues(in)`, after its `fseek(in, 0L, SEEK_SET)`. -/
def has_line_issues (BUFSIZ : Nat) (file : List Nat) : Option Int :=
  has_line_issues_loop BUFSIZ (file.length + 1) file

/-! Fix_line_issues -/

/-- The backward scan `for (i = len - 2; i >= 0; --i)` over trailing
spaces, TABs and CRs, entered with `n = i + 1`: `none` when the loop ends
with `i < 0`, else `some i` for the `i` at the `break`. -/
def scan_ws (inbuf : List Nat) : Nat → Option Nat
  | 0 => none
  | i + 1 =>
    if inbuf.getD i 0 ≠ 32 ∧ inbuf.getD i 0 ≠ 9 ∧ inbuf.getD i 0 ≠ 13 then some i
    else scan_ws inbuf i

/-- The byte-by-byte pass of `fix_line_issues_2`: the first argument is
the C string still to be read at `pin`, the second the bytes stored in
`outbuf` since the last flush.  Result: all bytes handed to `fputs`,
the final flush included. -/
def expand_loop : List Nat → List Nat → List Nat
  | [], outbuf => outbuf
  | c :: pin, outbuf =>
    if c = 13 then expand_loop pin outbuf
    else if c = 9 then (outbuf ++ List.replicate 8 32) ++ expand_loop pin []
    else expand_loop pin (outbuf ++ [c])

/-- One iteration of the loop of `fix_line_issues_2` for a buffer with
`strlen(inbuf) > 0`: the bytes written to `out` for this buffer. -/
def fix_line (BUFSIZ : Nat) (inbuf : List Nat) : List Nat :=
  let len := strlen inbuf
  if inbuf.getD (len - 1) 0 ≠ 10 ∧ len = BUFSIZ - 1 then
    -- long line, not touched
    inbuf.take len
  else
    -- `inbuf[len] = LF; len += 1` when the trailing LF is missing
    let line := if inbuf.getD (len - 1) 0 ≠ 10 then inbuf.take len ++ [10] else inbuf.take len
    if line.length = 1 then [10]
    else
      match scan_ws line (line.length - 1) with
      | none => [10]
      | some i =>
        -- `inbuf[i + 1] = LF; inbuf[i + 2] = NUL`
        let s := line.take (i + 1) ++ [10]
        if 13 ∉ s ∧ 9 ∉ s then s else expand_loop s []

/-- The `while (1)` loop of `fix_line_issues_2`; `out` collects what has
been written so far. -/
def fix_line_issues_2_loop (BUFSIZ : Nat) : Nat → List Nat → List Nat → Option (Int × List Nat)
  | 0, _, _ => none
  | fuel + 1, stream, out =>
    match fgets BUFSIZ stream with
    | none => some (0, out)
    | some (inbuf, rest) =>
      if strlen inbuf = 0 then some (0, out ++ [10])
      else fix_line_issues_2_loop BUFSIZ fuel rest (out ++ fix_line BUFSIZ inbuf)

/-- The rewriter `fix_line_issues_2(in, out)` on a freshly opened `in` and an empty
`out`: the return value and the bytes written. -/
def fix_line_issues_2 (BUFSIZ : Nat) (file : List Nat) : Option (Int × List Nat) :=
  fix_line_issues_2_loop BUFSIZ (file.length + 1) file []

/-- The fixer `fix_line_issues(filename)`: the temporary file written by
`fix_line_issues_2` replaces the original; on failure the original stays. -/
def fix_line_issues (BUFSIZ : Nat) (file : List Nat) : Option (Int × List Nat) :=
  match fix_line_issues_2 BUFSIZ file with
  | none => none
  | some (ret, out) => if ret < 0 then some (-1, file) else some (0, out)

/-! Has_tail_issues -/

/-- The detector `has_tail_issues(in)`.  `fseek(in, -2L, SEEK_END)` fails with `EINVAL`
exactly when the file has fewer than two bytes. -/
def has_tail_issues (file : List Nat) : Int :=
  if file.length < 2 then
    -- `fseek(in, 0L, SEEK_SET)`, then `fread(buf, 1, 1, in)`
    if (file.take 1).length = 1 ∧ file.getD 0 0 = 10 then 1 else 0
  else
    let buf := file.drop (file.length - 2)
    if buf.length ≠ 2 then -1
    else if buf.getD 0 0 = 10 ∧ buf.getD 1 0 = 10 then 1
    else 0

/-! Fix_tail_issues -/

/-- The loop `for (i = bufsize; i > 0; i /= 2)` that looks for a window
size `i` with `fseek(fp, -i, SEEK_END) == 0`, i.e. `i ≤ size`. -/
def seek_window (size : Nat) : Nat → Nat → Nat
  | 0, _ => 0
  | fuel + 1, i =>
    if i > 0 then
      if i ≤ size then i else seek_window size fuel (i / 2)
    else 0

/-- The loop `for (j = i - 1; j >= 0; --j)` over trailing LFs of the
window, entered with `n = j + 1`; the result is `j + 1` at loop exit
(`0` when the loop ends with `j = -1`). -/
def scan_lf (buf : List Nat) : Nat → Nat
  | 0 => 0
  | j + 1 => if buf.getD j 0 ≠ 10 then j + 1 else scan_lf buf j

/-- The call `truncate(filename, pos)`. -/
def truncate (file : List Nat) (pos : Nat) : List Nat :=
  file.take pos ++ List.replicate (pos - file.length) 0

/-- The `while (1)` loop of `fix_tail_issues`: return value and the file
as it is left. -/
def fix_tail_issues_loop : Nat → List Nat → Option (Int × List Nat)
  | 0, _ => none
  | fuel + 1, file =>
    let i := seek_window file.length 17 16
    if i = 0 then some (0, file)
    else
      let buf := file.drop (file.length - i)
      if buf.length ≠ i then some (-1, file)
      else
        -- `j` after `j += 2`
        let j := scan_lf buf i + 1
        if j > i then some (0, file)
        else if file.length < i - j then some (-1, file)
        else
          let pos := file.length - (i - j)
          let pos := if pos = 1 then 0 else pos
          let file1 := truncate file pos
          if i ≤ 1 ∨ j > 1 then some (0, file1)
          else fix_tail_issues_loop fuel file1

/-- The fixer `fix_tail_issues(filename)`. -/
def fix_tail_issues (file : List Nat) : Option (Int × List Nat) :=
  fix_tail_issues_loop (file.length + 1) file

/-! The check registry and the driver -/

/-- The record `struct checks_t`: a detector on the opened file and a fixer on the
file name (here: on the file as it is on disk, giving the return value
and the file as it is left). -/
structure checks_t where
  detect : List Nat → Option Int
  fixfun : List Nat → Option (Int × List Nat)

/-- The registry `checklist[]`. -/
def checklist (BUFSIZ : Nat) : List checks_t :=
  [⟨has_line_issues BUFSIZ, fix_line_issues BUFSIZ⟩,
   ⟨fun file => some (has_tail_issues file), fix_tail_issues⟩]

/-- The `for` loop of `needs_work`: `anything` and `checks_to_run` so far. -/
def needs_work_loop (file : List Nat) : List checks_t → Int → List Int → Option (Int × List Int)
  | [], anything, checks_to_run => some (anything, checks_to_run)
  | c :: cs, anything, checks_to_run =>
    match c.detect file with
    | none => none
    | some ret =>
      if ret < 0 then some (-1, checks_to_run)
      else needs_work_loop file cs (if anything ≠ 0 ∨ ret ≠ 0 then 1 else 0)
        (checks_to_run ++ [ret])

/-- The function `needs_work(filename, checks_to_run)`. -/
def needs_work (checks : List checks_t) (file : List Nat) : Option (Int × List Int) :=
  needs_work_loop file checks 0 []

/-- The function `do_work(filename, checks_to_run)`: return value and the file as it is
left. -/
def do_work : List checks_t → List Int → List Nat → Option (Int × List Nat)
  | c :: cs, r :: rs, file =>
    if r ≠ 0 then
      match c.fixfun file with
      | none => none
      | some (ret, file1) => if ret < 0 then some (-1, file1) else do_work cs rs file1
    else do_work cs rs file
  | _, _, file => some (0, file)

/-- The function `pepclean(filename)` over a registry. -/
def pepclean_checks (checks : List checks_t) (file : List Nat) : Option (Int × List Nat) :=
  match needs_work checks file with
  | none => none
  | some (ret, checks_to_run) =>
    if ret < 0 then some (-1, file)
    else if ret = 0 then some (0, file)
    else
      match do_work checks checks_to_run file with
      | none => none
      | some (ret1, file1) => if ret1 < 0 then some (-1, file1) else some (1, file1)

/-- The function `pepclean(filename)` with the registry of the program. -/
def pepclean (BUFSIZ : Nat) (file : List Nat) : Option (Int × List Nat) :=
  pepclean_checks (checklist BUFSIZ) file

/-- The `for` loop of `main`: `ret = pepclean(argv[i]) | ret` over the
per-file results. -/
def main_loop : List Int → Int → Int
  | [], ret => ret
  | r :: rs, ret => main_loop rs (Int.lor r ret)

/-- The exit code of `main` given the results of `pepclean` for
`argv[1..]`; without arguments the help text is printed. -/
def main (results : List Int) : Int :=
  if results = [] then 0
  else
    let ret := main_loop results 0
    if ret = 0 then 0 else if ret = -1 then 1 else 2

/-! One pass of the loop of fix_tail_issues -/

/-- How one pass through the body of the `while (1)` loop of
`fix_tail_issues` ends: `exit code` when the function leaves or returns
without a call of `truncate` in this pass; `cut ftell pos again` when
`truncate(filename, pos)` is called, where `ftell` is the value of `pos`
before the `pos == 1` exception and `again` tells that the loop is entered
once more. -/
inductive tail_step where
  | exit (code : Int)
  | cut (ftell : Nat) (pos : Nat) (again : Bool)
  deriving DecidableEq

/-- The body of the `while (1)` loop of `fix_tail_issues`, once. -/
def fix_tail_issues_step (file : List Nat) : tail_step :=
  let i := seek_window file.length 17 16
  if i = 0 then tail_step.exit 0
  else
    let buf := file.drop (file.length - i)
    if buf.length ≠ i then tail_step.exit (-1)
    else
      let j := scan_lf buf i + 1
      if j > i then tail_step.exit 0
      else if file.length < i - j then tail_step.exit (-1)
      else
        let pos := file.length - (i - j)
        tail_step.cut pos (if pos = 1 then 0 else pos) (¬ (i ≤ 1 ∨ j > 1))

/-! Detection with failing input and output -/

/-- A stream on a device that may fail: `data` holds the bytes that can
still be read, `fails` tells that the read after them ends in an I/O error
instead of the end of the file. -/
structure io_stream where
  data : List Nat
  fails : Bool

/-- The call `fgets(buf, n, in)` on a stream that may fail: NULL (`none`) at the
end of the file when no byte could be read, and NULL as well when the read
error is met before a LF was seen or the buffer was full. -/
def fgets_io (n : Nat) (s : io_stream) : Option (List Nat × io_stream) :=
  match s.data with
  | [] => none
  | _ :: _ =>
    let r := fgets_copy s.data (n - 1)
    if r.2 = [] ∧ r.1.getLast? ≠ some 10 ∧ r.1.length < n - 1 ∧ s.fails = true then none
    else some (r.1, ⟨r.2, s.fails⟩)

/-- The `while (1)` loop of `has_line_issues` on a stream that may fail. -/
def has_line_issues_io_loop (BUFSIZ : Nat) : Nat → io_stream → Option Int
  | 0, _ => none
  | fuel + 1, stream =>
    match fgets_io BUFSIZ stream with
    | none => some 0
    | some (buf, rest) =>
      match scan_crtab buf with
      | none => some 1
      | some p =>
        if p = 0 then some 1
        else if buf.getD (p - 1) 0 ≠ 10 then some 1
        else if p - 1 > 0 ∧ buf.getD (p - 2) 0 = 32 then some 1
        else has_line_issues_io_loop BUFSIZ fuel rest

/-- The detector `has_line_issues(in)` when `fseek(in, 0L, SEEK_SET)` may fail
(`seek_ok = false`) and reads may fail. -/
def has_line_issues_io (BUFSIZ : Nat) (seek_ok : Bool) (s : io_stream) : Option Int :=
  if seek_ok = false then some (-1)
  else has_line_issues_io_loop BUFSIZ (s.data.length + 1) s

/-- The detector `has_tail_issues(in)` when the reads may fail (`read_ok = false`:
every `fread` returns 0); the seeks behave as in `has_tail_issues`. -/
def has_tail_issues_io (read_ok : Bool) (file : List Nat) : Int :=
  if file.length < 2 then
    if read_ok = true ∧ (file.take 1).length = 1 ∧ file.getD 0 0 = 10 then 1 else 0
  else
    let buf := if read_ok = true then file.drop (file.length - 2) else []
    if buf.length ≠ 2 then -1
    else if buf.getD 0 0 = 10 ∧ buf.getD 1 0 = 10 then 1
    else 0

/-! Array indices written by the line rewriter -/

/-- The indices of `outbuf` that the byte-by-byte pass of
`fix_line_issues_2` writes: the first argument is the C string still to be
read at `pin`, the second is `pout - outbuf`.  A TAB writes the 8 spaces and
the NUL of `strcpy` at `pout .. pout + 8`; the end of the string writes the
NUL at `pout`. -/
def expand_loop_writes : List Nat → Nat → List Nat
  | [], pout => [pout]
  | c :: pin, pout =>
    if c = 13 then expand_loop_writes pin pout
    else if c = 9 then List.range' pout 9 ++ expand_loop_writes pin 0
    else pout :: expand_loop_writes pin (pout + 1)

/-- The indices written in one iteration of the loop of `fix_line_issues_2`
after `fgets` has filled `inbuf`: first those of `inbuf` (`inbuf[len]` for
the missing LF, `inbuf[i + 1]` and `inbuf[i + 2]` for the cut after the last
byte that is not whitespace), then those of `outbuf`. -/
def fix_line_writes (BUFSIZ : Nat) (inbuf : List Nat) : List Nat × List Nat :=
  let len := strlen inbuf
  if inbuf.getD (len - 1) 0 ≠ 10 ∧ len = BUFSIZ - 1 then ([], [])
  else
    let w := if inbuf.getD (len - 1) 0 ≠ 10 then [len] else []
    let line := if inbuf.getD (len - 1) 0 ≠ 10 then inbuf.take len ++ [10] else inbuf.take len
    if line.length = 1 then (w, [])
    else
      match scan_ws line (line.length - 1) with
      | none => (w, [])
      | some i =>
        let s := line.take (i + 1) ++ [10]
        if 13 ∉ s ∧ 9 ∉ s then (w ++ [i + 1, i + 2], [])
        else (w ++ [i + 1, i + 2], expand_loop_writes s 0)

/-! Reference definitions, following the specification -/

/-- The horizontal whitespace the specification lets the rewriter trim at
the end of a line: space, TAB and CR. -/
def spec_is_ws (c : Nat) : Bool := c = 32 || c = 9 || c = 13

/-- The lines of a file without their LF, in order; an unterminated final
line counts as a line. -/
def spec_lines : List Nat → List (List Nat)
  | [] => []
  | c :: cs =>
    if c = 10 then [] :: spec_lines cs
    else
      match spec_lines cs with
      | [] => [[c]]
      | l :: ls => (c :: l) :: ls

/-- What the specification makes of one byte that is not trailing
whitespace: a CR is dropped, a TAB becomes 8 spaces, any other byte is
copied. -/
def spec_expand_byte (c : Nat) : List Nat :=
  if c = 13 then [] else if c = 9 then List.replicate 8 32 else [c]

/-- The normal form of a line: the maximal trailing run of
space/TAB/CR removed, every remaining CR deleted, every remaining TAB
replaced by 8 spaces, and exactly one LF appended. -/
def spec_norm (l : List Nat) : List Nat :=
  (l.rdropWhile spec_is_ws).flatMap spec_expand_byte ++ [10]

/-- The reference rewriter: the normal forms of the lines, concatenated. -/
def spec_rewrite (file : List Nat) : List Nat :=
  (spec_lines file).flatMap spec_norm

/-- The subsequence of the bytes that are not space, TAB, CR or LF. -/
def non_ws (file : List Nat) : List Nat :=
  file.filter (fun c => c != 32 && c != 9 && c != 13 && c != 10)

/-- A line (given without its LF) that the specification calls clean for
reads of `BUFSIZ - 1` bytes: it fits into one read with its LF, holds no
CR and no TAB, and does not end in a space. -/
def spec_clean_line (BUFSIZ : Nat) (l : List Nat) : Prop :=
  10 ∉ l ∧ l.length + 1 ≤ BUFSIZ - 1 ∧ 13 ∉ l ∧ 9 ∉ l ∧ l.getLast? ≠ some 32

/-- The file made of the given lines, each followed by one LF. -/
def spec_join (ls : List (List Nat)) : List Nat :=
  ls.flatMap (fun l => l ++ [10])

/-- A file that the loop of the rewriter writes back as it is, behind
whatever has been written before. -/
def spec_fixed (BUFSIZ : Nat) (G : List Nat) : Prop :=
  ∀ fuel out, G.length < fuel →
    fix_line_issues_2_loop BUFSIZ fuel G out = some (0, out ++ G)

/-! Lemmas on the stdio primitives -/

theorem fgets_copy_append (s : List Nat) (k : Nat) :
    (fgets_copy s k).1 ++ (fgets_copy s k).2 = s := by
  induction s generalizing k with
  | nil => simp [fgets_copy]
  | cons c rest ih =>
    cases k with
    | zero => simp [fgets_copy]
    | succ k =>
      by_cases hc : c = 10
      · simp [fgets_copy, hc]
      · simp [fgets_copy, hc, ih]

theorem fgets_copy_length_le (s : List Nat) (k : Nat) :
    (fgets_copy s k).1.length ≤ k := by
  induction s generalizing k with
  | nil => simp [fgets_copy]
  | cons c rest ih =>
    cases k with
    | zero => simp [fgets_copy]
    | succ k =>
      by_cases hc : c = 10
      · simp [fgets_copy, hc]
      · simpa [fgets_copy, hc] using ih k

theorem fgets_copy_ne_nil (c : Nat) (rest : List Nat) (k : Nat) :
    (fgets_copy (c :: rest) (k + 1)).1 ≠ [] := by
  by_cases hc : c = 10 <;> simp [fgets_copy, hc]

/-- A line with its LF that fits into the buffer is read whole. -/
theorem fgets_copy_line (l rest : List Nat) (k : Nat) (hl : 10 ∉ l) (hk : l.length < k) :
    fgets_copy (l ++ 10 :: rest) k = (l ++ [10], rest) := by
  induction l generalizing k with
  | nil =>
    cases k with
    | zero => omega
    | succ k => simp [fgets_copy]
  | cons c l ih =>
    cases k with
    | zero => omega
    | succ k =>
      have hc : c ≠ 10 := by intro h; simp [h] at hl
      have hl1 : 10 ∉ l := by intro h; simp [h] at hl
      have := ih k hl1 (by simpa using hk)
      simp [fgets_copy, hc, this]

/-- An unterminated rest of the stream that fits into the buffer is read whole. -/
theorem fgets_copy_last (l : List Nat) (k : Nat) (hl : 10 ∉ l) (hk : l.length ≤ k) :
    fgets_copy l k = (l, []) := by
  induction l generalizing k with
  | nil => simp [fgets_copy]
  | cons c l ih =>
    cases k with
    | zero => simp at hk
    | succ k =>
      have hc : c ≠ 10 := by intro h; simp [h] at hl
      have hl1 : 10 ∉ l := by intro h; simp [h] at hl
      have := ih k hl1 (by simpa using hk)
      simp [fgets_copy, hc, this]

/-- A buffer-filling run without LF is cut at the buffer size. -/
theorem fgets_copy_long (l rest : List Nat) (hl : 10 ∉ l) :
    fgets_copy (l ++ rest) l.length = (l, rest) := by
  induction l with
  | nil => cases rest <;> simp [fgets_copy]
  | cons c l ih =>
    have hc : c ≠ 10 := by intro h; simp [h] at hl
    have hl1 : 10 ∉ l := by intro h; simp [h] at hl
    simp [fgets_copy, hc, ih hl1]

/-- Shape of what `fgets` stores: either a LF-free run followed by LF, or a
LF-free run that fills the buffer or reaches the end of the stream. -/
theorem fgets_copy_shape (s : List Nat) (k : Nat) :
    (∃ l, 10 ∉ l ∧ (fgets_copy s k).1 = l ++ [10]) ∨
    (10 ∉ (fgets_copy s k).1 ∧ ((fgets_copy s k).1.length = k ∨ (fgets_copy s k).2 = [])) := by
  induction s generalizing k with
  | nil => right; simp [fgets_copy]
  | cons c rest ih =>
    cases k with
    | zero => right; simp [fgets_copy]
    | succ k =>
      by_cases hc : c = 10
      · left; exact ⟨[], by simp, by simp [fgets_copy, hc]⟩
      · rcases ih k with ⟨l, hl, h⟩ | ⟨h1, h2⟩
        · left
          refine ⟨c :: l, ?_, by simp [fgets_copy, hc, h]⟩
          simp [hl, Ne.symm hc]
        · right
          refine ⟨by simp [fgets_copy, hc, h1, Ne.symm hc], ?_⟩
          simpa [fgets_copy, hc] using h2

theorem strlen_of_no_nul (buf : List Nat) (h : 0 ∉ buf) : strlen buf = buf.length := by
  induction buf with
  | nil => rfl
  | cons c cs ih =>
    have hc : c ≠ 0 := by intro h1; simp [h1] at h
    have h1 : 0 ∉ cs := by intro h1; simp [h1] at h
    simp [strlen, hc, ih h1]

theorem strlen_le (buf : List Nat) : strlen buf ≤ buf.length := by
  induction buf with
  | nil => simp [strlen]
  | cons c cs ih => by_cases hc : c = 0 <;> simp [strlen, hc, ih]

theorem scan_crtab_of_no_nul (buf : List Nat) (h : 0 ∉ buf) :
    scan_crtab buf = if 13 ∈ buf ∨ 9 ∈ buf then none else some buf.length := by
  induction buf with
  | nil => simp [scan_crtab]
  | cons c cs ih =>
    have hc : c ≠ 0 := by intro h1; simp [h1] at h
    have h1 : 0 ∉ cs := by intro h1; simp [h1] at h
    by_cases h2 : c = 13 ∨ c = 9
    · rcases h2 with h2 | h2 <;> simp [scan_crtab, h2]
    · have h3 : ¬ (13 = c) ∧ ¬ (9 = c) := by
        constructor <;> intro h4 <;> simp [← h4] at h2
      simp only [scan_crtab, hc, h2, if_false, ih h1, List.mem_cons, h3.1, h3.2, false_or]
      split <;> simp

theorem spec_is_ws_iff (c : Nat) : spec_is_ws c = true ↔ c = 32 ∨ c = 9 ∨ c = 13 := by
  simp [spec_is_ws, or_assoc]

theorem getD_ne_of_not_mem (l : List Nat) (i : Nat) (h : 10 ∉ l) : l.getD i 0 ≠ 10 := by
  intro h1
  by_cases hi : i < l.length
  · rw [List.getD_eq_getElem l 0 hi] at h1
    exact h (h1 ▸ List.getElem_mem hi)
  · rw [List.getD_eq_default l 0 (by omega)] at h1
    omega

theorem getD_length_append (b t : List Nat) (c : Nat) :
    (b ++ c :: t).getD b.length 0 = c := by
  have h : b.length < (b ++ c :: t).length := by simp
  rw [List.getD_eq_getElem _ _ h, List.getElem_append_right (le_refl _)]
  simp

theorem take_length_succ_append (b t : List Nat) (c : Nat) :
    (b ++ c :: t).take (b.length + 1) = b ++ [c] := by
  have h : b ++ c :: t = (b ++ [c]) ++ t := by simp
  rw [h, List.take_left']
  simp

theorem expand_loop_eq (s out : List Nat) :
    expand_loop s out = out ++ s.flatMap spec_expand_byte := by
  induction s generalizing out with
  | nil => simp [expand_loop]
  | cons c s ih =>
    by_cases h13 : c = 13
    · simp [expand_loop, h13, ih, spec_expand_byte]
    · by_cases h9 : c = 9
      · simp [expand_loop, h9, ih, spec_expand_byte]
      · simp [expand_loop, h13, h9, ih, spec_expand_byte]

theorem flatMap_expand_of_clean (s : List Nat) (h13 : 13 ∉ s) (h9 : 9 ∉ s) :
    s.flatMap spec_expand_byte = s := by
  induction s with
  | nil => rfl
  | cons c s ih =>
    have a1 : c ≠ 13 := by intro h; simp [h] at h13
    have a2 : c ≠ 9 := by intro h; simp [h] at h9
    have b1 : 13 ∉ s := by intro h; simp [h] at h13
    have b2 : 9 ∉ s := by intro h; simp [h] at h9
    simp [spec_expand_byte, a1, a2, ih b1 b2]

/-- The backward scan finds the end of the line after trimming. -/
theorem scan_ws_spec (b t : List Nat) :
    (scan_ws (b ++ t) b.length = none ∧ b.rdropWhile spec_is_ws = []) ∨
    (∃ i, scan_ws (b ++ t) b.length = some i ∧
      (b ++ t).take (i + 1) = b.rdropWhile spec_is_ws ∧ b.rdropWhile spec_is_ws ≠ []) := by
  induction b using List.reverseRecOn generalizing t with
  | nil => left; simp [scan_ws, List.rdropWhile]
  | append_singleton b c ih =>
    have hget : (b ++ [c] ++ t).getD b.length 0 = c := by
      simpa using getD_length_append b t c
    by_cases hc : spec_is_ws c = true
    · have hc1 := (spec_is_ws_iff c).1 hc
      have hstep : scan_ws (b ++ [c] ++ t) (b ++ [c]).length = scan_ws (b ++ (c :: t)) b.length := by
        have : ¬ (c ≠ 32 ∧ c ≠ 9 ∧ c ≠ 13) := by omega
        simp only [List.length_append, List.length_singleton, scan_ws, hget, this, if_false]
        simp
      rw [hstep, List.rdropWhile_concat_pos _ _ _ hc]
      simpa using ih (c :: t)
    · have hc1 : c ≠ 32 ∧ c ≠ 9 ∧ c ≠ 13 := by
        have := (spec_is_ws_iff c).not.1 hc
        omega
      right
      refine ⟨b.length, ?_, ?_, ?_⟩
      · simp only [List.length_append, List.length_singleton, scan_ws, hget]
        simp [hc1]
      · rw [List.rdropWhile_concat_neg _ _ _ hc]
        simpa using take_length_succ_append b t c
      · rw [List.rdropWhile_concat_neg _ _ _ hc]
        simp

theorem spec_norm_nil : spec_norm [] = [10] := by
  simp [spec_norm, List.rdropWhile]

/-- A LF-terminated buffer without NUL is written in normal form. -/
theorem fix_line_lf (B : Nat) (body : List Nat) (h0 : 0 ∉ body) :
    fix_line B (body ++ [10]) = spec_norm body := by
  have hnul : 0 ∉ body ++ [10] := by simp [h0]
  have hlen : strlen (body ++ [10]) = body.length + 1 := by
    rw [strlen_of_no_nul _ hnul]; simp
  have hget : (body ++ [10]).getD body.length 0 = 10 := getD_length_append body [] 10
  unfold fix_line
  simp only [hlen, Nat.add_sub_cancel, hget, ne_eq, not_true_eq_false, false_and, if_false]
  have htake : List.take (body.length + 1) (body ++ [10]) = body ++ [10] := by
    rw [List.take_of_length_le]; simp
  simp only [htake, List.length_append, List.length_singleton, Nat.add_sub_cancel]
  by_cases hb : body = []
  · subst hb; simp [spec_norm_nil]
  · have hb1 : body.length + 1 ≠ 1 := by
      have := List.length_pos.2 hb
      omega
    simp only [hb1, if_false]
    rcases scan_ws_spec body [10] with ⟨h1, h2⟩ | ⟨i, h1, h2, h3⟩
    · simp [h1, spec_norm, h2]
    · simp only [h1, h2, spec_norm]
      split
      · next hcl =>
        have c1 : 13 ∉ body.rdropWhile spec_is_ws := by intro h; apply hcl.1; simp [h]
        have c2 : 9 ∉ body.rdropWhile spec_is_ws := by intro h; apply hcl.2; simp [h]
        rw [flatMap_expand_of_clean _ c1 c2]
      · rw [expand_loop_eq]
        simp [spec_expand_byte]

/-- A buffer without LF and NUL that fills the buffer is written as it is. -/
theorem fix_line_long (B : Nat) (inbuf : List Nat) (h0 : 0 ∉ inbuf) (h10 : 10 ∉ inbuf)
    (hlen : inbuf.length = B - 1) : fix_line B inbuf = inbuf := by
  have hs : strlen inbuf = inbuf.length := strlen_of_no_nul _ h0
  have hget := getD_ne_of_not_mem inbuf (inbuf.length - 1) h10
  unfold fix_line
  simp only [hs]
  rw [if_pos ⟨hget, hlen⟩, List.take_length]

/-- An unterminated final line without NUL gets its LF and is written in
normal form. -/
theorem fix_line_unterminated (B : Nat) (inbuf : List Nat) (h0 : 0 ∉ inbuf) (h10 : 10 ∉ inbuf)
    (hlen : inbuf.length ≠ B - 1) : fix_line B inbuf = spec_norm inbuf := by
  have hs : strlen inbuf = inbuf.length := strlen_of_no_nul _ h0
  have hget := getD_ne_of_not_mem inbuf (inbuf.length - 1) h10
  have key := fix_line_lf B inbuf h0
  unfold fix_line at key ⊢
  have hnul : 0 ∉ inbuf ++ [10] := by simp [h0]
  have hlen2 : strlen (inbuf ++ [10]) = inbuf.length + 1 := by
    rw [strlen_of_no_nul _ hnul]; simp
  have hget2 : (inbuf ++ [10]).getD inbuf.length 0 = 10 := getD_length_append inbuf [] 10
  have htake : List.take (inbuf.length + 1) (inbuf ++ [10]) = inbuf ++ [10] := by
    rw [List.take_of_length_le]; simp
  simp only [hlen2, Nat.add_sub_cancel, hget2, ne_eq, not_true_eq_false, false_and, if_false,
    htake] at key
  simp only [hs, hget, ne_eq, not_false_eq_true, true_and, hlen, if_false, if_true,
    List.take_length]
  exact key

theorem fgets_of_ne_nil (n : Nat) (s : List Nat) (h : s ≠ []) :
    fgets n s = some (fgets_copy s (n - 1)) := by
  cases s with
  | nil => exact absurd rfl h
  | cons c rest => rfl

theorem spec_lines_line (l rest : List Nat) (hl : 10 ∉ l) :
    spec_lines (l ++ 10 :: rest) = l :: spec_lines rest := by
  induction l with
  | nil => simp [spec_lines]
  | cons c l ih =>
    have hc : c ≠ 10 := by intro h; simp [h] at hl
    have hl1 : 10 ∉ l := by intro h; simp [h] at hl
    simp [spec_lines, hc, ih hl1]

theorem spec_lines_last (l : List Nat) (hl : 10 ∉ l) (hne : l ≠ []) :
    spec_lines l = [l] := by
  induction l with
  | nil => exact absurd rfl hne
  | cons c l ih =>
    have hc : c ≠ 10 := by intro h; simp [h] at hl
    have hl1 : 10 ∉ l := by intro h; simp [h] at hl
    by_cases hnil : l = []
    · subst hnil; simp [spec_lines, hc]
    · simp [spec_lines, hc, ih hl1 hnil]

/-- A stream is at its end, or starts with a LF-terminated line, or is one
unterminated line. -/
theorem stream_cases (s : List Nat) :
    s = [] ∨ (∃ l rest, 10 ∉ l ∧ s = l ++ 10 :: rest) ∨ (10 ∉ s ∧ s ≠ []) := by
  induction s with
  | nil => left; rfl
  | cons c s ih =>
    right
    by_cases hc : c = 10
    · left; exact ⟨[], s, by simp, by simp [hc]⟩
    · rcases ih with h | ⟨l, rest, hl, h⟩ | ⟨h1, _⟩
      · right; subst h; simp [Ne.symm hc]
      · left; exact ⟨c :: l, rest, by simp [hl, Ne.symm hc], by simp [h]⟩
      · right; simp [h1, Ne.symm hc]

theorem spec_rewrite_nil : spec_rewrite [] = [] := by
  simp [spec_rewrite, spec_lines]

theorem spec_rewrite_line (l rest : List Nat) (hl : 10 ∉ l) :
    spec_rewrite (l ++ 10 :: rest) = spec_norm l ++ spec_rewrite rest := by
  simp [spec_rewrite, spec_lines_line l rest hl]

theorem spec_rewrite_last (l : List Nat) (hl : 10 ∉ l) (hne : l ≠ []) :
    spec_rewrite l = spec_norm l := by
  simp [spec_rewrite, spec_lines_last l hl hne]

/-- The loop of the rewriter computes the reference rewriter when every
line fits into one read. -/
theorem fix_loop_ref (B : Nat) (fuel : Nat) (s out : List Nat)
    (hfuel : s.length < fuel) (h0 : 0 ∉ s)
    (hfit : ∀ l ∈ spec_lines s, l.length + 1 ≤ B - 1) :
    fix_line_issues_2_loop B fuel s out = some (0, out ++ spec_rewrite s) := by
  induction fuel generalizing s out with
  | zero => omega
  | succ fuel ih =>
    rcases stream_cases s with h | ⟨l, rest, hl, h⟩ | ⟨h10, hne⟩
    · subst h
      simp [fix_line_issues_2_loop, fgets, spec_rewrite_nil]
    · subst h
      have hl0 : 0 ∉ l := by intro h; apply h0; simp [h]
      have hr0 : 0 ∉ rest := by intro h; apply h0; simp [h]
      have hlen : l.length + 1 ≤ B - 1 := hfit l (by simp [spec_lines_line l rest hl])
      have hfit1 : ∀ l1 ∈ spec_lines rest, l1.length + 1 ≤ B - 1 := by
        intro l1 h1
        exact hfit l1 (by simp [spec_lines_line l rest hl, h1])
      have hs : strlen (l ++ [10]) = l.length + 1 := by
        rw [strlen_of_no_nul _ (by simp [hl0])]; simp
      have hfu : rest.length < fuel := by
        simp at hfuel; omega
      rw [fix_line_issues_2_loop, fgets_of_ne_nil _ _ (by simp),
        fgets_copy_line l rest (B - 1) hl (by omega)]
      simp only [hs, Nat.succ_ne_zero, if_false, fix_line_lf B l hl0]
      rw [ih rest _ hfu hr0 hfit1, spec_rewrite_line l rest hl]
      simp
    · have hlen : s.length + 1 ≤ B - 1 := hfit s (by simp [spec_lines_last s h10 hne])
      have hs : strlen s = s.length := strlen_of_no_nul _ h0
      have hpos : 0 < s.length := List.length_pos.2 hne
      rw [fix_line_issues_2_loop, fgets_of_ne_nil _ _ hne,
        fgets_copy_last s (B - 1) h10 (by omega)]
      simp only [hs, Nat.ne_of_gt hpos, if_false,
        fix_line_unterminated B s h0 h10 (by omega)]
      cases fuel with
      | zero => omega
      | succ fuel =>
        simp [fix_line_issues_2_loop, fgets, spec_rewrite_last s h10 hne]

/-! Bytes that are not whitespace -/

theorem non_ws_append (a b : List Nat) : non_ws (a ++ b) = non_ws a ++ non_ws b := by
  simp [non_ws]

theorem non_ws_rdropWhile (l : List Nat) : non_ws (l.rdropWhile spec_is_ws) = non_ws l := by
  induction l using List.reverseRecOn with
  | nil => simp [List.rdropWhile]
  | append_singleton l c ih =>
    by_cases hc : spec_is_ws c = true
    · rw [List.rdropWhile_concat_pos _ _ _ hc, ih, non_ws_append]
      have h1 := (spec_is_ws_iff c).1 hc
      rcases h1 with h1 | h1 | h1 <;> simp [non_ws, h1]
    · rw [List.rdropWhile_concat_neg _ _ _ hc]

theorem non_ws_expand (l : List Nat) : non_ws (l.flatMap spec_expand_byte) = non_ws l := by
  induction l with
  | nil => rfl
  | cons c l ih =>
    have h : non_ws (spec_expand_byte c) = non_ws [c] := by
      by_cases h13 : c = 13
      · subst h13; decide
      · by_cases h9 : c = 9
        · subst h9; decide
        · simp [spec_expand_byte, h13, h9]
    have h2 : c :: l = [c] ++ l := rfl
    rw [List.flatMap_cons, non_ws_append, h, ih, h2, non_ws_append]

theorem non_ws_spec_norm (l : List Nat) : non_ws (spec_norm l) = non_ws l := by
  unfold spec_norm
  rw [non_ws_append, non_ws_expand, non_ws_rdropWhile]
  simp [non_ws]

/-- One iteration of the rewriter keeps the bytes that are not whitespace. -/
theorem non_ws_fix_line (B : Nat) (s : List Nat) (k : Nat) (h0 : 0 ∉ s) :
    non_ws (fix_line B (fgets_copy s k).1) = non_ws (fgets_copy s k).1 := by
  have hb0 : 0 ∉ (fgets_copy s k).1 := by
    intro h
    apply h0
    rw [← fgets_copy_append s k]
    simp [h]
  rcases fgets_copy_shape s k with ⟨l, hl, h⟩ | ⟨h1, _⟩
  · rw [h] at hb0 ⊢
    have hl0 : 0 ∉ l := by intro h; apply hb0; simp [h]
    rw [fix_line_lf B l hl0, non_ws_spec_norm, non_ws_append]
    simp [non_ws]
  · by_cases hlen : (fgets_copy s k).1.length = B - 1
    · rw [fix_line_long B _ hb0 h1 hlen]
    · rw [fix_line_unterminated B _ hb0 h1 hlen, non_ws_spec_norm]

/-- The loop of the rewriter returns 0 and keeps the bytes that are not
whitespace, whatever the line lengths. -/
theorem fix_loop_non_ws (B : Nat) (hB : 2 ≤ B) (fuel : Nat) (s out : List Nat)
    (hfuel : s.length < fuel) (h0 : 0 ∉ s) :
    ∃ res, fix_line_issues_2_loop B fuel s out = some (0, res) ∧
      non_ws res = non_ws out ++ non_ws s := by
  induction fuel generalizing s out with
  | zero => omega
  | succ fuel ih =>
    cases s with
    | nil => exact ⟨out, by simp [fix_line_issues_2_loop, fgets], by simp [non_ws]⟩
    | cons c rest =>
      obtain ⟨k, hk⟩ : ∃ k, B - 1 = k + 1 := ⟨B - 2, by omega⟩
      have happ := fgets_copy_append (c :: rest) (k + 1)
      have hne := fgets_copy_ne_nil c rest k
      have hb0 : 0 ∉ (fgets_copy (c :: rest) (k + 1)).1 := by
        intro h; apply h0; rw [← happ]; simp [h]
      have hr0 : 0 ∉ (fgets_copy (c :: rest) (k + 1)).2 := by
        intro h; apply h0; rw [← happ]; simp [h]
      have hs : strlen (fgets_copy (c :: rest) (k + 1)).1 ≠ 0 := by
        rw [strlen_of_no_nul _ hb0]
        exact Nat.ne_of_gt (List.length_pos.2 hne)
      have hlen : (fgets_copy (c :: rest) (k + 1)).2.length < fuel := by
        have h1 := congrArg List.length happ
        have h2 := List.length_pos.2 hne
        simp only [List.length_append, List.length_cons] at h1 hfuel
        omega
      obtain ⟨res, h1, h2⟩ := ih (fgets_copy (c :: rest) (k + 1)).2
        (out ++ fix_line B (fgets_copy (c :: rest) (k + 1)).1) hlen hr0
      refine ⟨res, ?_, ?_⟩
      · rw [fix_line_issues_2_loop]
        simp only [fgets, hk, hs, if_false]
        exact h1
      · rw [h2, non_ws_append, non_ws_fix_line B _ _ h0, List.append_assoc, ← non_ws_append,
          happ]

/-! The line detector -/

theorem getD_pred_length_append (l t : List Nat) (hne : l ≠ []) :
    (l ++ t).getD (l.length - 1) 0 = 32 ↔ l.getLast? = some 32 := by
  induction l using List.reverseRecOn with
  | nil => exact absurd rfl hne
  | append_singleton l c _ =>
    have h : (l ++ [c] ++ t).getD l.length 0 = c := by
      simpa using getD_length_append l t c
    rw [show (l ++ [c]).length - 1 = l.length by simp, h]
    simp

theorem scan_crtab_le (buf : List Nat) (p : Nat) (h : scan_crtab buf = some p) :
    p ≤ buf.length := by
  induction buf generalizing p with
  | nil => simp [scan_crtab] at h; omega
  | cons c cs ih =>
    by_cases hc : c = 0
    · simp [scan_crtab, hc] at h; omega
    · by_cases h2 : c = 13 ∨ c = 9
      · simp [scan_crtab, hc, h2] at h
      · simp only [scan_crtab, hc, h2, if_false, Option.map_eq_some'] at h
        obtain ⟨q, hq, rfl⟩ := h
        have := ih q hq
        simp
        omega

/-- One pass of the detector over a LF-terminated line that fits into the
buffer. -/
theorem has_line_loop_line (B fuel : Nat) (l rest : List Nat) (hl : 10 ∉ l) (h0 : 0 ∉ l)
    (hlen : l.length + 1 ≤ B - 1) :
    has_line_issues_loop B (fuel + 1) (l ++ 10 :: rest) =
      if 13 ∈ l ∨ 9 ∈ l ∨ l.getLast? = some 32 then some 1
      else has_line_issues_loop B fuel rest := by
  rw [has_line_issues_loop, fgets_of_ne_nil _ _ (by simp),
    fgets_copy_line l rest (B - 1) hl (by omega)]
  simp only [scan_crtab_of_no_nul (l ++ [10]) (by simp [h0])]
  have hget : (l ++ [10]).getD l.length 0 = 10 := getD_length_append l [] 10
  by_cases hct : 13 ∈ l ∨ 9 ∈ l
  · have h1 : 13 ∈ l ++ [10] ∨ 9 ∈ l ++ [10] := by
      rcases hct with h | h <;> simp [h]
    have h2 : 13 ∈ l ∨ 9 ∈ l ∨ l.getLast? = some 32 := by
      rcases hct with h | h <;> simp [h]
    simp only [h1, h2, if_true]
  · have h1 : ¬ (13 ∈ l ++ [10] ∨ 9 ∈ l ++ [10]) := by
      simpa using hct
    simp only [h1, if_false, List.length_append, List.length_singleton, Nat.add_sub_cancel,
      Nat.succ_ne_zero, hget, ne_eq, not_true_eq_false]
    by_cases hnil : l = []
    · subst hnil; simp
    · have hpos : l.length > 0 := List.length_pos.2 hnil
      have h3 : l.length + 1 - 2 = l.length - 1 := by omega
      rw [h3]
      by_cases hsp : l.getLast? = some 32
      · have := (getD_pred_length_append l [10] hnil).2 hsp
        have h4 : 13 ∈ l ∨ 9 ∈ l ∨ l.getLast? = some 32 := Or.inr (Or.inr hsp)
        simp only [this, hpos, and_self, if_true, h4]
      · have : ¬ (l ++ [10]).getD (l.length - 1) 0 = 32 :=
          fun h => hsp ((getD_pred_length_append l [10] hnil).1 h)
        have h4 : ¬ (13 ∈ l ∨ 9 ∈ l ∨ l.getLast? = some 32) := by
          rintro (h | h | h)
          · exact hct (Or.inl h)
          · exact hct (Or.inr h)
          · exact hsp h
        simp only [this, and_false, if_false, h4]

/-- A read that ends without LF (long line or unterminated last line)
makes the detector report an issue. -/
theorem has_line_loop_no_lf (B fuel : Nat) (s : List Nat) (hne : s ≠ []) (h0 : 0 ∉ s)
    (h10 : 10 ∉ (fgets_copy s (B - 1)).1) :
    has_line_issues_loop B (fuel + 1) s = some 1 := by
  have hb0 : 0 ∉ (fgets_copy s (B - 1)).1 := by
    intro h; apply h0; rw [← fgets_copy_append s (B - 1)]; simp [h]
  rw [has_line_issues_loop, fgets_of_ne_nil _ _ hne]
  simp only [scan_crtab_of_no_nul _ hb0]
  split
  · rfl
  · next p hp =>
    split at hp
    · exact absurd hp (by simp)
    · have hp1 : (fgets_copy s (B - 1)).1.length = p := by simpa using hp
      have := getD_ne_of_not_mem _ (p - 1) h10
      by_cases hp0 : p = 0
      · simp only [hp0, if_true]
      · simp only [hp0, if_false, this, ne_eq, not_false_eq_true, if_true]

/-- The detector always returns 0 or 1. -/
theorem has_line_loop_total (B fuel : Nat) (s : List Nat) (hfuel : s.length < fuel) :
    has_line_issues_loop B fuel s = some 0 ∨ has_line_issues_loop B fuel s = some 1 := by
  induction fuel generalizing s with
  | zero => omega
  | succ fuel ih =>
    cases s with
    | nil => left; simp [has_line_issues_loop, fgets]
    | cons c rest =>
      have happ := fgets_copy_append (c :: rest) (B - 1)
      rw [has_line_issues_loop]
      simp only [fgets]
      split
      · right; rfl
      · next p hp =>
        have hle := scan_crtab_le _ _ hp
        by_cases h1 : p = 0
        · right; simp [h1]
        · simp only [h1, if_false]
          split
          · right; rfl
          · split
            · right; rfl
            · apply ih
              have h2 := congrArg List.length happ
              simp only [List.length_append, List.length_cons] at h2 hfuel
              omega

theorem spec_join_cons (l : List Nat) (ls : List (List Nat)) :
    spec_join (l :: ls) = l ++ 10 :: spec_join ls := by
  simp [spec_join]

/-- The detector accepts every file made of clean lines. -/
theorem has_line_loop_clean (B fuel : Nat) (ls : List (List Nat))
    (hcl : ∀ l ∈ ls, spec_clean_line B l ∧ 0 ∉ l) (hfuel : (spec_join ls).length < fuel) :
    has_line_issues_loop B fuel (spec_join ls) = some 0 := by
  induction ls generalizing fuel with
  | nil =>
    cases fuel with
    | zero => omega
    | succ fuel => simp [spec_join, has_line_issues_loop, fgets]
  | cons l ls ih =>
    cases fuel with
    | zero => omega
    | succ fuel =>
      obtain ⟨⟨h10, hlen, h13, h9, hsp⟩, h0⟩ := hcl l (by simp)
      rw [spec_join_cons] at hfuel ⊢
      rw [has_line_loop_line B fuel l _ h10 h0 hlen]
      have h4 : ¬ (13 ∈ l ∨ 9 ∈ l ∨ l.getLast? = some 32) := by
        rintro (h | h | h)
        · exact h13 h
        · exact h9 h
        · exact hsp h
      simp only [h4, if_false]
      apply ih
      · intro l1 h1; exact hcl l1 (by simp [h1])
      · simp only [List.length_append, List.length_cons] at hfuel
        omega

/-- Every file without NUL that the detector accepts is made of clean lines. -/
theorem has_line_loop_zero (B fuel : Nat) (s : List Nat) (h0 : 0 ∉ s)
    (h : has_line_issues_loop B fuel s = some 0) :
    ∃ ls, s = spec_join ls ∧ ∀ l ∈ ls, spec_clean_line B l := by
  induction fuel generalizing s with
  | zero => simp [has_line_issues_loop] at h
  | succ fuel ih =>
    by_cases hne : s = []
    · exact ⟨[], by simp [hne, spec_join], by simp⟩
    · have happ := fgets_copy_append s (B - 1)
      have hle := fgets_copy_length_le s (B - 1)
      rcases fgets_copy_shape s (B - 1) with ⟨l, hl, hshape⟩ | ⟨h10, _⟩
      · obtain ⟨r, hr⟩ : ∃ r, (fgets_copy s (B - 1)).2 = r := ⟨_, rfl⟩
        have hlen : l.length + 1 ≤ B - 1 := by
          rw [hshape] at hle; simpa using hle
        rw [hshape, hr] at happ
        have hs : s = l ++ 10 :: r := by rw [← happ]; simp
        clear hshape hr hle happ
        subst hs
        have hl0 : 0 ∉ l := by intro h1; apply h0; simp [h1]
        have hr0 : 0 ∉ r := by intro h1; apply h0; simp [h1]
        rw [has_line_loop_line B fuel l _ hl hl0 hlen] at h
        split at h
        · exact absurd h (by simp)
        · next hcond =>
          obtain ⟨ls, h1, h2⟩ := ih _ hr0 h
          refine ⟨l :: ls, ?_, ?_⟩
          · rw [spec_join_cons, ← h1]
          · intro l1 hl1
            rcases List.mem_cons.1 hl1 with h3 | h3
            · subst h3
              exact ⟨hl, hlen, fun h => hcond (Or.inl h), fun h => hcond (Or.inr (Or.inl h)),
                fun h => hcond (Or.inr (Or.inr h))⟩
            · exact h2 l1 h3
      · rw [has_line_loop_no_lf B fuel s hne h0 h10] at h
        exact absurd h (by simp)

/-! The tail detector and the tail collapser -/

theorem seek_window_eq (size : Nat) :
    seek_window size 17 16 =
      if 16 ≤ size then 16 else if 8 ≤ size then 8 else if 4 ≤ size then 4
      else if 2 ≤ size then 2 else if 1 ≤ size then 1 else 0 := by
  simp [seek_window]

theorem seek_window_le (size : Nat) : seek_window size 17 16 ≤ size := by
  rw [seek_window_eq]; split_ifs <;> omega

theorem seek_window_eq_zero (size : Nat) : seek_window size 17 16 = 0 ↔ size = 0 := by
  rw [seek_window_eq]
  constructor <;> intro h <;> split_ifs at * <;> omega

theorem seek_window_ge_two (size : Nat) (h : 2 ≤ size) : 2 ≤ seek_window size 17 16 := by
  rw [seek_window_eq]; split_ifs <;> omega

theorem scan_lf_spec (buf : List Nat) (i a : Nat) (ha : a ≤ i)
    (hlf : ∀ k, a ≤ k → k < i → buf.getD k 0 = 10)
    (hstop : a = 0 ∨ buf.getD (a - 1) 0 ≠ 10) : scan_lf buf i = a := by
  induction i with
  | zero => simp [scan_lf]; omega
  | succ i ih =>
    by_cases hai : a = i + 1
    · subst hai
      have : buf.getD i 0 ≠ 10 := by
        rcases hstop with h | h
        · omega
        · simpa using h
      simp only [scan_lf, this, ne_eq, not_false_eq_true, if_true]
    · have h1 : buf.getD i 0 = 10 := hlf i (by omega) (by omega)
      simp only [scan_lf, h1, ne_eq, not_true_eq_false, if_false]
      exact ih (by omega) (fun k hk1 hk2 => hlf k hk1 (by omega))

theorem getD_drop (l : List Nat) (d k : Nat) : (l.drop d).getD k 0 = l.getD (d + k) 0 := by
  simp [List.getD_eq_getElem?_getD, List.getElem?_drop]

theorem getD_append_replicate (P : List Nat) (n k : Nat) (h1 : P.length ≤ k)
    (h2 : k < P.length + n) : (P ++ List.replicate n 10).getD k 0 = 10 := by
  rw [List.getD_eq_getElem?_getD, List.getElem?_append_right h1, List.getElem?_replicate]
  have : k - P.length < n := by omega
  simp [this]

theorem getD_last_ne (P t : List Nat) (hne : P ≠ []) (hP : P.getLast? ≠ some 10) :
    (P ++ t).getD (P.length - 1) 0 ≠ 10 := by
  induction P using List.reverseRecOn with
  | nil => exact absurd rfl hne
  | append_singleton P c _ =>
    have h : (P ++ [c] ++ t).getD P.length 0 = c := by
      simpa using getD_length_append P t c
    rw [show (P ++ [c]).length - 1 = P.length by simp, h]
    intro hc
    apply hP
    simp [hc]

theorem take_append_replicate (P : List Nat) (n m : Nat) (h : m ≤ n) :
    (P ++ List.replicate n 10).take (P.length + m) = P ++ List.replicate m 10 := by
  rw [List.take_append]
  simp [List.take_replicate, h]

theorem truncate_of_le (file : List Nat) (pos : Nat) (h : pos ≤ file.length) :
    truncate file pos = file.take pos := by
  simp [truncate, Nat.sub_eq_zero_of_le h]

/-- The collapser on a file given as a body that does not end in LF followed
by `n` LFs. -/
theorem fix_tail_loop_spec (fuel : Nat) (P : List Nat) (n : Nat)
    (hP : P.getLast? ≠ some 10) (hfuel : P.length + n < fuel) :
    fix_tail_issues_loop fuel (P ++ List.replicate n 10) =
      some (0, if n = 0 then P else if P = [] then [] else P ++ [10]) := by
  induction fuel generalizing n with
  | zero => omega
  | succ fuel ih =>
    have hsize : (P ++ List.replicate n 10).length = P.length + n := by simp
    rw [fix_tail_issues_loop]
    simp only [hsize]
    generalize hi : seek_window (P.length + n) 17 16 = i
    have hile : i ≤ P.length + n := hi ▸ seek_window_le _
    have hi0 : i = 0 ↔ P.length + n = 0 := hi ▸ seek_window_eq_zero _
    have hi2 : 2 ≤ P.length + n → 2 ≤ i := fun h => hi ▸ seek_window_ge_two _ h
    by_cases hz : P.length + n = 0
    · have hP0 : P = [] := List.length_eq_zero.1 (by omega)
      have hn0 : n = 0 := by omega
      simp [hi0.2 hz, hP0, hn0]
    · have hine : i ≠ 0 := fun h => hz (hi0.1 h)
      have hlen : (List.drop (P.length + n - i) (P ++ List.replicate n 10)).length = i := by
        rw [List.length_drop, hsize]; omega
      have ha : scan_lf (List.drop (P.length + n - i) (P ++ List.replicate n 10)) i = i - n := by
        apply scan_lf_spec _ i (i - n) (by omega)
        · intro k hk1 hk2
          rw [getD_drop]
          exact getD_append_replicate P n _ (by omega) (by omega)
        · by_cases hin : i ≤ n
          · left; omega
          · right
            have hPne : P ≠ [] := by
              intro h; rw [h] at hile; simp at hile; omega
            rw [getD_drop]
            have : P.length + n - i + (i - n - 1) = P.length - 1 := by omega
            rw [this]
            exact getD_last_ne P _ hPne hP
      simp only [hine, if_false, hlen, ne_eq, not_true_eq_false, ha]
      by_cases hn0 : n = 0
      · subst hn0
        have : i - 0 + 1 > i := by omega
        simp [this]
      · simp only [hn0, if_false]
        have h1 : ¬ (i - n + 1 > i) := by omega
        have h2 : ¬ (P.length + n < i - (i - n + 1)) := by omega
        simp only [h1, h2, if_false]
        by_cases hin : i ≤ n
        · -- the whole window is LF
          have hpos : P.length + n - (i - (i - n + 1)) = P.length + (n - i + 1) := by omega
          rw [hpos]
          by_cases hone : P.length + (n - i + 1) = 1
          · have hP0 : P = [] := List.length_eq_zero.1 (by omega)
            have hfu : 0 < fuel := by omega
            have htr : truncate (P ++ List.replicate n 10) 0 = [] := by simp [truncate]
            simp only [hone, if_true, htr]
            simp only [hP0, if_true]
            split
            · rfl
            · cases fuel with
              | zero => omega
              | succ fuel => simp [fix_tail_issues_loop, seek_window]
          · have h4 : ¬ (i ≤ 1 ∨ i - n + 1 > 1) := by
              by_cases h2le : 2 ≤ P.length + n
              · have := hi2 h2le
                omega
              · omega
            have h5 : n - i + 1 ≠ 0 := by omega
            simp only [hone, if_false, h4]
            rw [truncate_of_le _ _ (by simp; omega), take_append_replicate P n _ (by omega)]
            rw [ih (n - i + 1) (by by_cases h2le : 2 ≤ P.length + n
                                   · have := hi2 h2le
                                     omega
                                   · omega)]
            simp only [h5, if_false]
        · -- the window reaches into the body
          have hPne : P ≠ [] := by
            intro h; rw [h] at hile; simp at hile; omega
          have hPpos : 0 < P.length := List.length_pos.2 hPne
          have hpos : P.length + n - (i - (i - n + 1)) = P.length + 1 := by omega
          have h3 : P.length + 1 ≠ 1 := by omega
          have h4 : i ≤ 1 ∨ i - n + 1 > 1 := by omega
          simp only [hpos, h3, if_false, h4, if_true, hPne]
          rw [truncate_of_le _ _ (by simp; omega), take_append_replicate P n 1 (by omega)]
          simp

/-- Every file is a body that does not end in LF, followed by LFs. -/
theorem exists_body_lfs (F : List Nat) :
    ∃ P n, F = P ++ List.replicate n 10 ∧ P.getLast? ≠ some 10 := by
  induction F using List.reverseRecOn with
  | nil => exact ⟨[], 0, by simp, by simp⟩
  | append_singleton F c ih =>
    by_cases hc : c = 10
    · obtain ⟨P, n, h1, h2⟩ := ih
      refine ⟨P, n + 1, ?_, h2⟩
      rw [h1, hc, List.replicate_succ']
      simp
    · exact ⟨F ++ [c], 0, by simp, by simp [hc]⟩

/-- What the collapser leaves of a body followed by `n` LFs. -/
theorem fix_tail_issues_body (P : List Nat) (n : Nat) (hP : P.getLast? ≠ some 10) :
    fix_tail_issues (P ++ List.replicate n 10) =
      some (0, if n = 0 then P else if P = [] then [] else P ++ [10]) := by
  unfold fix_tail_issues
  exact fix_tail_loop_spec _ P n hP (by simp)

theorem has_tail_issues_nil : has_tail_issues [] = 0 := by
  simp [has_tail_issues]

theorem has_tail_issues_single (c : Nat) : has_tail_issues [c] = if c = 10 then 1 else 0 := by
  simp [has_tail_issues]

theorem has_tail_issues_two (P : List Nat) (a b : Nat) :
    has_tail_issues (P ++ [a, b]) = if a = 10 ∧ b = 10 then 1 else 0 := by
  have h1 : ¬ (P ++ [a, b]).length < 2 := by simp
  have h2 : List.drop ((P ++ [a, b]).length - 2) (P ++ [a, b]) = [a, b] := by
    have : (P ++ [a, b]).length - 2 = P.length := by simp
    rw [this]
    simp
  simp only [has_tail_issues, h1, if_false, h2]
  simp

/-- A file is empty, a single byte, or ends in two bytes. -/
theorem file_cases (F : List Nat) :
    F = [] ∨ (∃ c, F = [c]) ∨ (∃ P a b, F = P ++ [a, b]) := by
  induction F using List.reverseRecOn with
  | nil => left; rfl
  | append_singleton F b _ =>
    right
    induction F using List.reverseRecOn with
    | nil => left; exact ⟨b, by simp⟩
    | append_singleton F a _ => right; exact ⟨F, a, b, by simp⟩

theorem has_tail_issues_total (F : List Nat) :
    has_tail_issues F = 0 ∨ has_tail_issues F = 1 := by
  rcases file_cases F with h | ⟨c, h⟩ | ⟨P, a, b, h⟩
  · subst h; left; exact has_tail_issues_nil
  · subst h; rw [has_tail_issues_single]; split <;> simp
  · subst h; rw [has_tail_issues_two]; split <;> simp

/-- A file that does not end in LF has no tail issue. -/
theorem has_tail_issues_no_lf (P : List Nat) (hP : P.getLast? ≠ some 10) :
    has_tail_issues P = 0 := by
  rcases file_cases P with h | ⟨c, h⟩ | ⟨Q, a, b, h⟩
  · subst h; exact has_tail_issues_nil
  · subst h
    have hc : c ≠ 10 := by intro h; apply hP; simp [h]
    simp [has_tail_issues_single, hc]
  · subst h
    have hb : b ≠ 10 := by intro h; apply hP; simp [h]
    simp [has_tail_issues_two, hb]

/-- A file that ends in exactly one LF after a non-empty body has no tail
issue. -/
theorem has_tail_issues_one_lf (P : List Nat) (hne : P ≠ []) (hP : P.getLast? ≠ some 10) :
    has_tail_issues (P ++ [10]) = 0 := by
  induction P using List.reverseRecOn with
  | nil => exact absurd rfl hne
  | append_singleton Q c _ =>
    have hc : c ≠ 10 := by intro h; apply hP; simp [h]
    have : Q ++ [c] ++ [10] = Q ++ [c, 10] := by simp
    rw [this, has_tail_issues_two]
    simp [hc]

/-- The collapser succeeds on every file, and what it leaves has no tail
issue. -/
theorem fix_tail_issues_clean (F : List Nat) :
    ∃ R, fix_tail_issues F = some (0, R) ∧ has_tail_issues R = 0 ∧ non_ws R = non_ws F := by
  obtain ⟨P, n, h1, h2⟩ := exists_body_lfs F
  have hnw : non_ws (List.replicate n 10) = [] := by
    simp [non_ws]
  subst h1
  rw [fix_tail_issues_body P n h2]
  refine ⟨_, rfl, ?_, ?_⟩
  · by_cases hn : n = 0
    · simp only [hn, if_true]; exact has_tail_issues_no_lf P h2
    · simp only [hn, if_false]
      by_cases hP : P = []
      · simp only [hP, if_true]; exact has_tail_issues_nil
      · simp only [hP, if_false]; exact has_tail_issues_one_lf P hP h2
  · rw [non_ws_append, hnw]
    by_cases hn : n = 0
    · simp [hn]
    · by_cases hP : P = []
      · simp [hn, hP, non_ws]
      · simp [hn, hP, non_ws_append, non_ws]

/-! The driver -/

theorem has_line_issues_total (B : Nat) (F : List Nat) :
    has_line_issues B F = some 0 ∨ has_line_issues B F = some 1 :=
  has_line_loop_total B _ F (by simp)

theorem pepclean_clean (B : Nat) (F : List Nat) (hL : has_line_issues B F = some 0)
    (hT : has_tail_issues F = 0) : pepclean B F = some (0, F) := by
  simp [pepclean, pepclean_checks, needs_work, needs_work_loop, checklist, hL, hT]

theorem pepclean_tail (B : Nat) (F R : List Nat) (hL : has_line_issues B F = some 0)
    (hT : has_tail_issues F = 1) (hfix : fix_tail_issues F = some (0, R)) :
    pepclean B F = some (1, R) := by
  simp [pepclean, pepclean_checks, needs_work, needs_work_loop, checklist, do_work, hL, hT, hfix]

theorem pepclean_line (B : Nat) (F G : List Nat) (hL : has_line_issues B F = some 1)
    (hT : has_tail_issues F = 0) (hfix : fix_line_issues B F = some (0, G)) :
    pepclean B F = some (1, G) := by
  simp [pepclean, pepclean_checks, needs_work, needs_work_loop, checklist, do_work, hL, hT, hfix]

theorem pepclean_both (B : Nat) (F G R : List Nat) (hL : has_line_issues B F = some 1)
    (hT : has_tail_issues F = 1) (hfix : fix_line_issues B F = some (0, G))
    (hfix2 : fix_tail_issues G = some (0, R)) :
    pepclean B F = some (1, R) := by
  simp [pepclean, pepclean_checks, needs_work, needs_work_loop, checklist, do_work, hL, hT, hfix,
    hfix2]

theorem fix_line_issues_of_loop (B : Nat) (F G : List Nat)
    (h : fix_line_issues_2 B F = some (0, G)) : fix_line_issues B F = some (0, G) := by
  simp [fix_line_issues, h]

/-- The rewriter computes the reference rewriter when every line fits into
one read. -/
theorem fix_line_issues_2_ref (B : Nat) (F : List Nat) (h0 : 0 ∉ F)
    (hfit : ∀ l ∈ spec_lines F, l.length + 1 ≤ B - 1) :
    fix_line_issues_2 B F = some (0, spec_rewrite F) := by
  have := fix_loop_ref B (F.length + 1) F [] (by simp) h0 hfit
  simpa [fix_line_issues_2] using this

theorem fix_line_issues_2_non_ws (B : Nat) (hB : 2 ≤ B) (F : List Nat) (h0 : 0 ∉ F) :
    ∃ G, fix_line_issues_2 B F = some (0, G) ∧ non_ws G = non_ws F := by
  obtain ⟨G, h1, h2⟩ := fix_loop_non_ws B hB (F.length + 1) F [] (by simp) h0
  exact ⟨G, h1, by simpa [non_ws] using h2⟩

/-- The whole pipeline returns, and keeps the bytes that are not whitespace. -/
theorem pepclean_non_ws (B : Nat) (hB : 2 ≤ B) (F : List Nat) (h0 : 0 ∉ F) :
    ∃ r G, pepclean B F = some (r, G) ∧ non_ws G = non_ws F := by
  obtain ⟨G, hG, hGn⟩ := fix_line_issues_2_non_ws B hB F h0
  have hG1 := fix_line_issues_of_loop B F G hG
  obtain ⟨R, hR, _, hRn⟩ := fix_tail_issues_clean F
  obtain ⟨R2, hR2, _, hR2n⟩ := fix_tail_issues_clean G
  rcases has_line_issues_total B F with hL | hL <;>
    rcases has_tail_issues_total F with hT | hT
  · exact ⟨0, F, pepclean_clean B F hL hT, rfl⟩
  · exact ⟨1, R, pepclean_tail B F R hL hT hR, hRn⟩
  · exact ⟨1, G, pepclean_line B F G hL hT hG1, hGn⟩
  · exact ⟨1, R2, pepclean_both B F G R2 hL hT hG1 hR2, hR2n.trans hGn⟩

/-! Clean files -/

theorem list_nil_or_snoc {α : Type} (l : List α) : l = [] ∨ ∃ t c, l = t ++ [c] := by
  induction l using List.reverseRecOn with
  | nil => left; rfl
  | append_singleton t c _ => right; exact ⟨t, c, rfl⟩

theorem spec_join_nil : spec_join [] = [] := rfl

theorem spec_join_concat (ls : List (List Nat)) (l : List Nat) :
    spec_join (ls ++ [l]) = spec_join ls ++ l ++ [10] := by
  simp [spec_join]

theorem mem_spec_join (ls : List (List Nat)) (l : List Nat) (c : Nat) (hl : l ∈ ls)
    (hc : c ∈ l) : c ∈ spec_join ls := by
  simp only [spec_join, List.mem_flatMap]
  exact ⟨l, hl, by simp [hc]⟩

theorem spec_lines_mem (F : List Nat) : ∀ l ∈ spec_lines F, ∀ c ∈ l, c ∈ F ∧ c ≠ 10 := by
  induction F with
  | nil => simp [spec_lines]
  | cons c F ih =>
    intro l hl x hx
    by_cases hc : c = 10
    · simp only [spec_lines, hc, if_true, List.mem_cons] at hl
      rcases hl with h | h
      · subst h; simp at hx
      · have := ih l h x hx
        exact ⟨by simp [this.1], this.2⟩
    · simp only [spec_lines, hc, if_false] at hl
      cases hsl : spec_lines F with
      | nil =>
        rw [hsl] at hl
        simp only [List.mem_singleton] at hl
        subst hl
        simp only [List.mem_singleton] at hx
        subst hx
        exact ⟨by simp, hc⟩
      | cons l0 ls0 =>
        rw [hsl] at hl ih
        simp only [List.mem_cons] at hl
        rcases hl with h | h
        · subst h
          rcases List.mem_cons.1 hx with h1 | h1
          · subst h1; exact ⟨by simp, hc⟩
          · have := ih l0 (by simp) x h1
            exact ⟨by simp [this.1], this.2⟩
        · have := ih l (by simp [h]) x hx
          exact ⟨by simp [this.1], this.2⟩

theorem spec_expand_byte_mem (c x : Nat) (hx : x ∈ spec_expand_byte c) :
    (x = c ∨ x = 32) ∧ x ≠ 13 ∧ x ≠ 9 := by
  unfold spec_expand_byte at hx
  split at hx
  · simp at hx
  · split at hx
    · have := List.eq_of_mem_replicate hx
      omega
    · simp only [List.mem_singleton] at hx
      omega

/-- The normal form of a line without LF and NUL that is short enough is
a clean line followed by LF. -/
theorem spec_norm_clean (B : Nat) (l : List Nat) (h10 : 10 ∉ l) (h0 : 0 ∉ l)
    (hlen : (spec_norm l).length ≤ B - 1) :
    spec_clean_line B ((l.rdropWhile spec_is_ws).flatMap spec_expand_byte) ∧
      0 ∉ (l.rdropWhile spec_is_ws).flatMap spec_expand_byte := by
  have hsub : ∀ c ∈ l.rdropWhile spec_is_ws, c ∈ l :=
    fun c hc => (List.rdropWhile_prefix spec_is_ws l).subset hc
  have hmem : ∀ x ∈ (l.rdropWhile spec_is_ws).flatMap spec_expand_byte,
      ((x ∈ l) ∨ x = 32) ∧ x ≠ 13 ∧ x ≠ 9 := by
    intro x hx
    obtain ⟨c, hc, hxc⟩ := List.mem_flatMap.1 hx
    have := spec_expand_byte_mem c x hxc
    refine ⟨?_, this.2⟩
    rcases this.1 with h | h
    · left; rw [h]; exact hsub c hc
    · right; exact h
  refine ⟨⟨?_, ?_, ?_, ?_, ?_⟩, ?_⟩
  · intro h
    rcases (hmem 10 h).1 with h1 | h1
    · exact h10 h1
    · omega
  · simpa [spec_norm] using hlen
  · intro h; exact (hmem 13 h).2.1 rfl
  · intro h; exact (hmem 9 h).2.2 rfl
  · by_cases hnil : l.rdropWhile spec_is_ws = []
    · simp [hnil]
    · have hlast := List.rdropWhile_last_not spec_is_ws l hnil
      obtain ⟨t, c, htc⟩ : ∃ t c, l.rdropWhile spec_is_ws = t ++ [c] := by
        rcases list_nil_or_snoc (l.rdropWhile spec_is_ws) with h | ⟨t, c, h⟩
        · exact absurd h hnil
        · exact ⟨t, c, h⟩
      have hc : ¬ spec_is_ws c = true := by
        simpa [htc] using hlast
      have hc1 : c ≠ 32 ∧ c ≠ 9 ∧ c ≠ 13 := by
        have := (spec_is_ws_iff c).not.1 hc
        omega
      rw [htc]
      simp [spec_expand_byte, hc1.1, hc1.2.1, hc1.2.2]
  · intro h
    rcases (hmem 0 h).1 with h1 | h1
    · exact h0 h1
    · omega

theorem spec_rewrite_eq_join (F : List Nat) :
    spec_rewrite F =
      spec_join ((spec_lines F).map
        (fun l => (l.rdropWhile spec_is_ws).flatMap spec_expand_byte)) := by
  unfold spec_rewrite spec_join
  induction spec_lines F with
  | nil => rfl
  | cons l ls ih => simp [spec_norm, ih]

/-- The reference rewriter produces a file of clean lines when the lines
of its result fit into one read. -/
theorem spec_rewrite_clean (B : Nat) (F : List Nat) (h0 : 0 ∉ F)
    (hout : ∀ l ∈ spec_lines F, (spec_norm l).length ≤ B - 1) :
    ∃ ls, spec_rewrite F = spec_join ls ∧ ∀ l ∈ ls, spec_clean_line B l ∧ 0 ∉ l := by
  refine ⟨_, spec_rewrite_eq_join F, ?_⟩
  intro l hl
  obtain ⟨l0, hl0, rfl⟩ := List.mem_map.1 hl
  apply spec_norm_clean B l0
  · intro h; exact (spec_lines_mem F l0 hl0 10 h).2 rfl
  · intro h; exact h0 (spec_lines_mem F l0 hl0 0 h).1
  · exact hout l0 hl0

/-- Collapsing the trailing LFs of a file of clean lines leaves a file of
clean lines. -/
theorem collapse_clean (B : Nat) (P : List Nat) (n : Nat) (ls : List (List Nat))
    (h : P ++ List.replicate n 10 = spec_join ls)
    (hcl : ∀ l ∈ ls, spec_clean_line B l ∧ 0 ∉ l) :
    ∃ ls1, (if n = 0 then P else if P = [] then [] else P ++ [10]) = spec_join ls1 ∧
      ∀ l ∈ ls1, spec_clean_line B l ∧ 0 ∉ l := by
  induction n generalizing ls with
  | zero => exact ⟨ls, by simpa using h, hcl⟩
  | succ n ih =>
    by_cases hP0 : P = []
    · exact ⟨[], by simp [hP0, spec_join_nil], by simp⟩
    · rcases list_nil_or_snoc ls with hnil | ⟨ls0, l, hls⟩
      · subst hnil
        have := congrArg List.length h
        simp [spec_join_nil] at this
      · subst hls
        rw [spec_join_concat, List.replicate_succ', ← List.append_assoc] at h
        have h1 : P ++ List.replicate n 10 = spec_join ls0 ++ l :=
          List.append_inj_left' h rfl
        cases n with
        | zero =>
          refine ⟨ls0 ++ [l], ?_, hcl⟩
          rw [spec_join_concat]
          simp only [List.replicate_zero, List.append_nil] at h1
          rw [if_neg (by omega), if_neg hP0, h1]
        | succ m =>
          have hl10 : 10 ∉ l := (hcl l (by simp)).1.1
          have hlnil : l = [] := by
            rcases list_nil_or_snoc l with h2 | ⟨l1, c, h2⟩
            · exact h2
            · subst h2
              rw [List.replicate_succ', ← List.append_assoc, ← List.append_assoc] at h1
              have h3 := List.append_inj_right' h1 rfl
              simp only [List.cons.injEq, and_true] at h3
              exact absurd (by simp [← h3]) hl10
          subst hlnil
          simp only [List.append_nil] at h1
          obtain ⟨ls1, h4, h5⟩ := ih ls0 h1 (fun l1 hl1 => hcl l1 (by simp [hl1]))
          refine ⟨ls1, ?_, h5⟩
          simpa [hP0] using h4

/-- On a file of clean lines the collapser leaves a file on which neither
detector fires. -/
theorem fix_tail_issues_clean_lines (B : Nat) (X : List Nat) (ls : List (List Nat))
    (hX : X = spec_join ls) (hcl : ∀ l ∈ ls, spec_clean_line B l ∧ 0 ∉ l) :
    ∃ R, fix_tail_issues X = some (0, R) ∧ has_line_issues B R = some 0 ∧
      has_tail_issues R = 0 := by
  obtain ⟨R, hR, hT, _⟩ := fix_tail_issues_clean X
  refine ⟨R, hR, ?_, hT⟩
  obtain ⟨P, n, h1, h2⟩ := exists_body_lfs X
  rw [h1, fix_tail_issues_body P n h2] at hR
  have hR1 : R = if n = 0 then P else if P = [] then [] else P ++ [10] := by
    simpa using hR.symm
  obtain ⟨ls1, h3, h4⟩ := collapse_clean B P n ls (h1.symm.trans hX) hcl
  rw [hR1, h3]
  exact has_line_loop_clean B _ ls1 h4 (by simp [has_line_issues])

/-! Files that satisfy the rules -/

theorem mem_of_getLast_eq (l : List Nat) (c : Nat) (h : l.getLast? = some c) : c ∈ l := by
  rcases list_nil_or_snoc l with h1 | ⟨t, d, h1⟩
  · subst h1; simp at h
  · subst h1
    have : d = c := by simpa using h
    simp [this]

/-- The detector accepts a file without NUL, CR and TAB that is empty or
ends in LF, has no space before a LF, and whose lines fit into one read. -/
theorem has_line_loop_of_rules (B fuel : Nat) (s : List Nat) (hfuel : s.length < fuel)
    (h0 : 0 ∉ s) (h13 : 13 ∉ s) (h9 : 9 ∉ s) (hsp : ¬ [32, 10] <:+: s)
    (hend : s = [] ∨ s.getLast? = some 10)
    (hfit : ∀ l ∈ spec_lines s, l.length + 1 ≤ B - 1) :
    has_line_issues_loop B fuel s = some 0 := by
  induction fuel generalizing s with
  | zero => omega
  | succ fuel ih =>
    rcases stream_cases s with h | ⟨l, rest, hl, h⟩ | ⟨h10, hne⟩
    · subst h; simp [has_line_issues_loop, fgets]
    · subst h
      have hl0 : 0 ∉ l := by intro h; apply h0; simp [h]
      have hlen : l.length + 1 ≤ B - 1 := hfit l (by simp [spec_lines_line l rest hl])
      rw [has_line_loop_line B fuel l rest hl hl0 hlen]
      have hcond : ¬ (13 ∈ l ∨ 9 ∈ l ∨ l.getLast? = some 32) := by
        rintro (h | h | h)
        · apply h13; simp [h]
        · apply h9; simp [h]
        · rcases list_nil_or_snoc l with h1 | ⟨t, c, h1⟩
          · subst h1; simp at h
          · subst h1
            have hc : c = 32 := by simpa using h
            apply hsp
            exact ⟨t, rest, by simp [hc]⟩
      simp only [hcond, if_false]
      apply ih
      · simp only [List.length_append, List.length_cons] at hfuel; omega
      · intro h; apply h0; simp [h]
      · intro h; apply h13; simp [h]
      · intro h; apply h9; simp [h]
      · rintro ⟨a, b, hab⟩
        apply hsp
        exact ⟨l ++ 10 :: a, b, by simp [← hab]⟩
      · by_cases hr : rest = []
        · left; exact hr
        · right
          rcases hend with h | h
          · simp at h
          · rw [List.getLast?_append_of_ne_nil _ (by simp)] at h
            have h2 : (10 :: rest) = [10] ++ rest := rfl
            rw [h2, List.getLast?_append_of_ne_nil _ hr] at h
            exact h
      · intro l1 h1
        exact hfit l1 (by simp [spec_lines_line l rest hl, h1])
    · rcases hend with h | h
      · exact absurd h hne
      · exact absurd (mem_of_getLast_eq s 10 h) h10

theorem has_tail_issues_of_rules (F : List Nat) (hend : F = [] ∨ F.getLast? = some 10)
    (htwo : ¬ [10, 10] <:+ F) (hone : F ≠ [10]) : has_tail_issues F = 0 := by
  rcases file_cases F with h | ⟨c, h⟩ | ⟨P, a, b, h⟩
  · subst h; exact has_tail_issues_nil
  · subst h
    rcases hend with h | h
    · simp at h
    · have hc : c = 10 := by simpa using h
      exact absurd (by rw [hc]) hone
  · subst h
    rw [has_tail_issues_two]
    have : ¬ (a = 10 ∧ b = 10) := by
      rintro ⟨ha, hb⟩
      apply htwo
      exact ⟨P, by rw [ha, hb]⟩
    simp only [this, if_false]

theorem needs_work_clean (B : Nat) (F : List Nat) (hL : has_line_issues B F = some 0)
    (hT : has_tail_issues F = 0) : needs_work (checklist B) F = some (0, [0, 0]) := by
  simp [needs_work, needs_work_loop, checklist, hL, hT]

/-! Long lines -/

/-- A read that fills the buffer without meeting LF or NUL is written as
it is, and the loop goes on behind it. -/
theorem fix_loop_long_chunk (B fuel : Nat) (l rest out : List Nat) (hne : l ≠ [])
    (h10 : 10 ∉ l) (h0 : 0 ∉ l) (hlen : l.length = B - 1) :
    fix_line_issues_2_loop B (fuel + 1) (l ++ rest) out =
      fix_line_issues_2_loop B fuel rest (out ++ l) := by
  have hcopy : fgets_copy (l ++ rest) (B - 1) = (l, rest) := by
    rw [← hlen]; exact fgets_copy_long l rest h10
  have hs : strlen l ≠ 0 := by
    rw [strlen_of_no_nul l h0]
    exact Nat.ne_of_gt (List.length_pos.2 hne)
  rw [fix_line_issues_2_loop, fgets_of_ne_nil _ _ (by simp [hne]), hcopy]
  simp only [hs, if_false, fix_line_long B l h0 h10 hlen]

theorem replicate_no_mem (n a c : Nat) (h : c ≠ a) : c ∉ List.replicate n a := by
  intro hc
  exact h (List.eq_of_mem_replicate hc)

/-- The line detector fires on a line of `BUFSIZ - 1` letters and a LF. -/
theorem long_line_detect (B : Nat) :
    has_line_issues B (List.replicate (B - 1) 97 ++ [10]) = some 1 := by
  have hcopy : fgets_copy (List.replicate (B - 1) 97 ++ [10]) (B - 1) =
      (List.replicate (B - 1) 97, [10]) := by
    have := fgets_copy_long (List.replicate (B - 1) 97) [10] (replicate_no_mem _ _ _ (by omega))
    rwa [List.length_replicate] at this
  apply has_line_loop_no_lf B _ _ (by simp)
  · intro h
    rcases List.mem_append.1 h with h1 | h1
    · exact replicate_no_mem _ _ _ (by omega) h1
    · simp at h1
  · rw [hcopy]
    exact replicate_no_mem _ _ _ (by omega)

/-- The rewriter copies a line of `BUFSIZ - 1` letters and a LF. -/
theorem long_line_fix (B : Nat) (hB : 2 ≤ B) :
    fix_line_issues_2 B (List.replicate (B - 1) 97 ++ [10]) =
      some (0, List.replicate (B - 1) 97 ++ [10]) := by
  unfold fix_line_issues_2
  have hne : List.replicate (B - 1) 97 ≠ [] := by
    intro h
    have := congrArg List.length h
    simp at this; omega
  rw [fix_loop_long_chunk B _ _ [10] [] hne (replicate_no_mem _ _ _ (by omega))
    (replicate_no_mem _ _ _ (by omega)) (by simp)]
  rw [fix_loop_ref B _ [10] _ (by simp; omega) (by simp)]
  · simp [spec_rewrite, spec_lines, spec_norm_nil]
  · intro l hl
    have : l = [] := by simpa [spec_lines] using hl
    subst this
    simp; omega

theorem long_line_tail (k : Nat) : has_tail_issues (List.replicate (k + 1) 97 ++ [10]) = 0 := by
  have : List.replicate (k + 1) 97 ++ [10] = List.replicate k 97 ++ [97, 10] := by
    rw [List.replicate_succ']; simp
  rw [this, has_tail_issues_two]
  simp

/-- The pipeline reports `changed` on a line of `BUFSIZ - 1` letters and
a LF, and leaves the same bytes. -/
theorem long_line_pepclean (B : Nat) (hB : 2 ≤ B) :
    pepclean B (List.replicate (B - 1) 97 ++ [10]) =
      some (1, List.replicate (B - 1) 97 ++ [10]) := by
  apply pepclean_line B _ _ (long_line_detect B)
  · obtain ⟨k, hk⟩ : ∃ k, B - 1 = k + 1 := ⟨B - 2, by omega⟩
    rw [hk]; exact long_line_tail k
  · exact fix_line_issues_of_loop B _ _ (long_line_fix B hB)

/-! Files of LFs -/

theorem replicate_lf_join (N : Nat) : List.replicate N 10 = spec_join (List.replicate N []) := by
  induction N with
  | zero => rfl
  | succ N ih => rw [List.replicate_succ, List.replicate_succ, spec_join_cons, ← ih]; rfl

theorem has_line_issues_lfs (B : Nat) (hB : 2 ≤ B) (N : Nat) :
    has_line_issues B (List.replicate N 10) = some 0 := by
  unfold has_line_issues
  rw [replicate_lf_join N]
  apply has_line_loop_clean B _ _ _ (by simp)
  intro l hl
  have : l = [] := List.eq_of_mem_replicate hl
  subst this
  refine ⟨⟨by simp, by simp; omega, by simp, by simp, by simp⟩, by simp⟩

theorem has_tail_issues_lfs (N : Nat) (hN : 1 ≤ N) :
    has_tail_issues (List.replicate N 10) = 1 := by
  obtain ⟨k, rfl⟩ : ∃ k, N = k + 1 := ⟨N - 1, by omega⟩
  cases k with
  | zero => simp [has_tail_issues_single]
  | succ k =>
    have : List.replicate (k + 1 + 1) 10 = List.replicate k 10 ++ [10, 10] := by
      rw [List.replicate_succ', List.replicate_succ']; simp
    rw [this, has_tail_issues_two]
    simp

theorem fix_tail_issues_lfs (N : Nat) :
    fix_tail_issues (List.replicate N 10) = some (0, []) := by
  have := fix_tail_issues_body [] N (by simp)
  simpa using this

/-! The exit code -/

theorem lor_neg_one_left (x : Int) (hx : x = -1 ∨ x = 0 ∨ x = 1) : Int.lor (-1) x = -1 := by
  rcases hx with h | h | h <;> subst h
  · show Int.lor (Int.negSucc 0) (Int.negSucc 0) = Int.negSucc 0
    simp [Int.lor]
  · show Int.lor (Int.negSucc 0) (Int.ofNat 0) = Int.negSucc 0
    simp [Int.lor, Nat.ldiff]
  · show Int.lor (Int.negSucc 0) (Int.ofNat 1) = Int.negSucc 0
    simp [Int.lor, Nat.ldiff]

theorem lor_neg_one_right (x : Int) (hx : x = -1 ∨ x = 0 ∨ x = 1) : Int.lor x (-1) = -1 := by
  rcases hx with h | h | h <;> subst h
  · show Int.lor (Int.negSucc 0) (Int.negSucc 0) = Int.negSucc 0
    simp [Int.lor]
  · show Int.lor (Int.ofNat 0) (Int.negSucc 0) = Int.negSucc 0
    simp [Int.lor, Nat.ldiff]
  · show Int.lor (Int.ofNat 1) (Int.negSucc 0) = Int.negSucc 0
    simp [Int.lor, Nat.ldiff]

theorem lor_zero_zero : Int.lor 0 0 = 0 := by
  show Int.lor (Int.ofNat 0) (Int.ofNat 0) = Int.ofNat 0
  simp [Int.lor]

theorem lor_zero_one : Int.lor 0 1 = 1 := by
  show Int.lor (Int.ofNat 0) (Int.ofNat 1) = Int.ofNat 1
  simp [Int.lor]

theorem lor_one_zero : Int.lor 1 0 = 1 := by
  show Int.lor (Int.ofNat 1) (Int.ofNat 0) = Int.ofNat 1
  simp [Int.lor]

theorem lor_one_one : Int.lor 1 1 = 1 := by
  show Int.lor (Int.ofNat 1) (Int.ofNat 1) = Int.ofNat 1
  simp [Int.lor]

/-- The fold of `main` over results in {-1, 0, 1}: -1 wins over 1, 1 over 0. -/
theorem main_loop_eq (rs : List Int) (ret : Int)
    (hrs : ∀ r ∈ rs, r = -1 ∨ r = 0 ∨ r = 1) (hret : ret = -1 ∨ ret = 0 ∨ ret = 1) :
    main_loop rs ret =
      if (-1 : Int) ∈ rs ∨ ret = -1 then -1 else if (1 : Int) ∈ rs ∨ ret = 1 then 1 else 0 := by
  induction rs generalizing ret with
  | nil =>
    rcases hret with h | h | h <;> subst h <;> simp [main_loop]
  | cons r rs ih =>
    have hr := hrs r (by simp)
    have hrs1 : ∀ x ∈ rs, x = -1 ∨ x = 0 ∨ x = 1 := fun x hx => hrs x (by simp [hx])
    have hval : Int.lor r ret =
        if r = -1 ∨ ret = -1 then -1 else if r = 1 ∨ ret = 1 then 1 else 0 := by
      rcases hr with h | h | h
      · subst h; simp [lor_neg_one_left ret hret]
      · subst h
        rcases hret with h1 | h1 | h1 <;> subst h1
        · simp [lor_neg_one_right 0 (by simp)]
        · simp [lor_zero_zero]
        · simp [lor_zero_one]
      · subst h
        rcases hret with h1 | h1 | h1 <;> subst h1
        · simp [lor_neg_one_right 1 (by simp)]
        · simp [lor_one_zero]
        · simp [lor_one_one]
    have hlor : Int.lor r ret = -1 ∨ Int.lor r ret = 0 ∨ Int.lor r ret = 1 := by
      rw [hval]; split_ifs <;> simp
    rw [main_loop, ih (Int.lor r ret) hrs1 hlor, hval]
    rcases hr with h | h | h <;> rcases hret with h1 | h1 | h1 <;> subst h <;> subst h1 <;>
      by_cases hm : (-1 : Int) ∈ rs <;> by_cases hp : (1 : Int) ∈ rs <;>
      simp [hm, hp]

/-! The pipeline on files whose lines fit into one read -/

theorem expand_tabs (n : Nat) :
    (List.replicate n 9).flatMap spec_expand_byte = List.replicate (8 * n) 32 := by
  induction n with
  | zero => rfl
  | succ n ih =>
    rw [List.replicate_succ, List.flatMap_cons, ih]
    have : 8 * (n + 1) = 8 + 8 * n := by omega
    rw [this, List.replicate_add]
    rfl

theorem spec_norm_tabs (n : Nat) :
    spec_norm (List.replicate n 9 ++ [120]) = List.replicate (8 * n) 32 ++ [120, 10] := by
  have h : ¬ spec_is_ws 120 = true := by decide
  unfold spec_norm
  rw [List.rdropWhile_concat_neg _ _ _ h, List.flatMap_append, expand_tabs]
  simp [spec_expand_byte]

theorem tab_line_lines (n : Nat) :
    spec_lines (List.replicate n 9 ++ [120, 10]) = [List.replicate n 9 ++ [120]] := by
  have h10 : 10 ∉ List.replicate n 9 ++ [120] := by
    intro h
    rcases List.mem_append.1 h with h1 | h1
    · exact replicate_no_mem _ _ _ (by omega) h1
    · simp at h1
  have := spec_lines_line (List.replicate n 9 ++ [120]) [] h10
  simpa [spec_lines] using this

/-- The rewriter on `n` TABs, a letter and a LF, when the line fits. -/
theorem tab_line_fix (B n : Nat) (hfit : n + 2 ≤ B - 1) :
    fix_line_issues_2 B (List.replicate n 9 ++ [120, 10]) =
      some (0, List.replicate (8 * n) 32 ++ [120, 10]) := by
  have h0 : 0 ∉ List.replicate n 9 ++ [120, 10] := by
    intro h
    rcases List.mem_append.1 h with h1 | h1
    · exact replicate_no_mem _ _ _ (by omega) h1
    · simp at h1
  rw [fix_line_issues_2_ref B _ h0]
  · simp [spec_rewrite, tab_line_lines, spec_norm_tabs]
  · intro l hl
    rw [tab_line_lines] at hl
    have : l = List.replicate n 9 ++ [120] := by simpa using hl
    subst this
    simpa using hfit

/-- The line detector fires on a line of at least `BUFSIZ - 1` spaces. -/
theorem space_line_detect (B m : Nat) (hm : B - 1 ≤ m) :
    has_line_issues B (List.replicate m 32 ++ [120, 10]) = some 1 := by
  obtain ⟨k, rfl⟩ : ∃ k, m = (B - 1) + k := ⟨m - (B - 1), by omega⟩
  have hsplit : List.replicate (B - 1 + k) 32 ++ [120, 10] =
      List.replicate (B - 1) 32 ++ (List.replicate k 32 ++ [120, 10]) := by
    rw [List.replicate_add, List.append_assoc]
  have hcopy : fgets_copy (List.replicate (B - 1) 32 ++ (List.replicate k 32 ++ [120, 10]))
      (B - 1) = (List.replicate (B - 1) 32, List.replicate k 32 ++ [120, 10]) := by
    have := fgets_copy_long (List.replicate (B - 1) 32) (List.replicate k 32 ++ [120, 10])
      (replicate_no_mem _ _ _ (by omega))
    rwa [List.length_replicate] at this
  rw [hsplit]
  apply has_line_loop_no_lf B _ _ (by simp)
  · intro h
    rcases List.mem_append.1 h with h1 | h1
    · exact replicate_no_mem _ _ _ (by omega) h1
    · rcases List.mem_append.1 h1 with h2 | h2
      · exact replicate_no_mem _ _ _ (by omega) h2
      · simp at h2
  · rw [hcopy]
    exact replicate_no_mem _ _ _ (by omega)

/-- The rules of a clean file hold for a line of letters followed by one LF. -/
theorem long_line_rules (k : Nat) :
    0 ∉ List.replicate (k + 1) 97 ++ [10] ∧ 13 ∉ List.replicate (k + 1) 97 ++ [10] ∧
    9 ∉ List.replicate (k + 1) 97 ++ [10] ∧ ¬ [32, 10] <:+: List.replicate (k + 1) 97 ++ [10] ∧
    (List.replicate (k + 1) 97 ++ [10]).getLast? = some 10 ∧
    ¬ [10, 10] <:+ List.replicate (k + 1) 97 ++ [10] ∧
    List.replicate (k + 1) 97 ++ [10] ≠ [10] := by
  have hmem : ∀ c, c ≠ 97 → c ≠ 10 → c ∉ List.replicate (k + 1) 97 ++ [10] := by
    intro c h1 h2 h
    rcases List.mem_append.1 h with h3 | h3
    · exact replicate_no_mem _ _ _ h1 h3
    · simp at h3; exact h2 h3
  refine ⟨hmem 0 (by omega) (by omega), hmem 13 (by omega) (by omega),
    hmem 9 (by omega) (by omega), ?_, by simp, ?_, ?_⟩
  · intro h
    exact hmem 32 (by omega) (by omega) (h.subset (by simp))
  · rintro ⟨t, ht⟩
    have h1 : List.replicate (k + 1) 97 ++ [10] = List.replicate k 97 ++ [97, 10] := by
      rw [List.replicate_succ']; simp
    rw [h1] at ht
    have h2 := List.append_inj_right' ht rfl
    simp at h2
  · intro h
    have := congrArg List.length h
    simp at this

/-- C2, refuted as stated.  With `BUFSIZ = 8192`: (1) a line of 8191 letters
and a LF satisfies every rule of the claim and has no NUL, yet the line
detector fires and the pipeline reports `changed`; (2) `a NUL b LF`
satisfies every rule of the claim, yet the line detector fires and the
pipeline cuts the line at the NUL. -/
theorem C2_counterexample :
    (0 ∉ List.replicate 8191 97 ++ [10] ∧ 13 ∉ List.replicate 8191 97 ++ [10] ∧
      9 ∉ List.replicate 8191 97 ++ [10] ∧ ¬ [32, 10] <:+: List.replicate 8191 97 ++ [10] ∧
      (List.replicate 8191 97 ++ [10]).getLast? = some 10 ∧
      ¬ [10, 10] <:+ List.replicate 8191 97 ++ [10] ∧
      List.replicate 8191 97 ++ [10] ≠ [10] ∧
      has_line_issues 8192 (List.replicate 8191 97 ++ [10]) = some 1 ∧
      pepclean 8192 (List.replicate 8191 97 ++ [10]) =
        some (1, List.replicate 8191 97 ++ [10])) ∧
    (13 ∉ [97, 0, 98, 10] ∧ 9 ∉ [97, 0, 98, 10] ∧ ¬ [32, 10] <:+: [97, 0, 98, 10] ∧
      [97, 0, 98, 10].getLast? = some 10 ∧ ¬ [10, 10] <:+ [97, 0, 98, 10] ∧
      [97, 0, 98, 10] ≠ [10] ∧
      has_line_issues 8192 [97, 0, 98, 10] = some 1 ∧
      pepclean 8192 [97, 0, 98, 10] = some (1, [97, 10])) := by
  obtain ⟨a1, a2, a3, a4, a5, a6, a7⟩ := long_line_rules 8190
  exact ⟨⟨a1, a2, a3, a4, a5, a6, a7, long_line_detect 8192,
    long_line_pepclean 8192 (by norm_num)⟩,
    by decide, by decide, by decide, by decide, by decide, by decide, by decide, by decide⟩

/-- C2, amended.  For every file without NUL bytes in which every line has
at most `BUFSIZ - 1` bytes with its LF and that satisfies the rules (no CR,
no TAB, no space immediately before a LF, empty or ending in LF, not ending
in two LFs, not the single LF): both detectors return 0, `needs_work`
returns 0 with no check to run, and `pepclean` returns 0 with the bytes
unchanged. -/
theorem C2_noop_on_clean_files (B : Nat) (F : List Nat) (h0 : 0 ∉ F)
    (hfit : ∀ l ∈ spec_lines F, l.length + 1 ≤ B - 1)
    (h13 : 13 ∉ F) (h9 : 9 ∉ F) (hsp : ¬ [32, 10] <:+: F)
    (hend : F = [] ∨ F.getLast? = some 10) (htwo : ¬ [10, 10] <:+ F) (hone : F ≠ [10]) :
    has_line_issues B F = some 0 ∧ has_tail_issues F = 0 ∧
      needs_work (checklist B) F = some (0, [0, 0]) ∧ pepclean B F = some (0, F) := by
  have hL : has_line_issues B F = some 0 :=
    has_line_loop_of_rules B _ F (by simp) h0 h13 h9 hsp hend hfit
  have hT : has_tail_issues F = 0 := has_tail_issues_of_rules F hend htwo hone
  exact ⟨hL, hT, needs_work_clean B F hL hT, pepclean_clean B F hL hT⟩

/-- C2, amended, at `BUFSIZ = 8192` on the file `clean LF`. -/
theorem C2_noop_on_clean_files_witness :
    has_line_issues 8192 [99, 108, 101, 97, 110, 10] = some 0 ∧
      has_tail_issues [99, 108, 101, 97, 110, 10] = 0 ∧
      needs_work (checklist 8192) [99, 108, 101, 97, 110, 10] = some (0, [0, 0]) ∧
      pepclean 8192 [99, 108, 101, 97, 110, 10] = some (0, [99, 108, 101, 97, 110, 10]) :=
  C2_noop_on_clean_files 8192 [99, 108, 101, 97, 110, 10] (by decide) (by decide) (by decide)
    (by decide) (by decide) (by decide) (by decide) (by decide)

/-- C3.  For every file without NUL bytes, whatever the length of its lines
(`BUFSIZ` at least 2): `fix_line_issues`, `fix_tail_issues` and the whole
pipeline return, and the bytes of the result that are not space, TAB, CR or
LF are the same, in the same order, as those of the file. -/
theorem C3_content_kept (B : Nat) (hB : 2 ≤ B) (F : List Nat) (h0 : 0 ∉ F) :
    (∃ G, fix_line_issues B F = some (0, G) ∧ non_ws G = non_ws F) ∧
    (∃ R, fix_tail_issues F = some (0, R) ∧ non_ws R = non_ws F) ∧
    (∃ r G, pepclean B F = some (r, G) ∧ non_ws G = non_ws F) := by
  refine ⟨?_, ?_, pepclean_non_ws B hB F h0⟩
  · obtain ⟨G, h1, h2⟩ := fix_line_issues_2_non_ws B hB F h0
    exact ⟨G, fix_line_issues_of_loop B F G h1, h2⟩
  · obtain ⟨R, h1, _, h2⟩ := fix_tail_issues_clean F
    exact ⟨R, h1, h2⟩

/-- C3 at `BUFSIZ = 8192` on `a space TAB b CR LF LF LF`. -/
theorem C3_content_kept_witness :
    (∃ G, fix_line_issues 8192 [97, 32, 9, 98, 13, 10, 10, 10] = some (0, G) ∧
      non_ws G = non_ws [97, 32, 9, 98, 13, 10, 10, 10]) ∧
    (∃ R, fix_tail_issues [97, 32, 9, 98, 13, 10, 10, 10] = some (0, R) ∧
      non_ws R = non_ws [97, 32, 9, 98, 13, 10, 10, 10]) ∧
    (∃ r G, pepclean 8192 [97, 32, 9, 98, 13, 10, 10, 10] = some (r, G) ∧
      non_ws G = non_ws [97, 32, 9, 98, 13, 10, 10, 10]) :=
  C3_content_kept 8192 (by decide) [97, 32, 9, 98, 13, 10, 10, 10] (by decide)

/-- C4.  For every file without NUL bytes in which every line, the
unterminated final line included, has at most `BUFSIZ - 2` bytes before its
LF: `fix_line_issues_2` returns 0 and writes the concatenation over the lines
of the normal form of each line (trailing run of space/TAB/CR removed, every
other CR deleted, every other TAB replaced by 8 spaces, one LF appended). -/
theorem C4_rewriter_reference (B : Nat) (F : List Nat) (h0 : 0 ∉ F)
    (hfit : ∀ l ∈ spec_lines F, l.length + 1 ≤ B - 1) :
    fix_line_issues_2 B F = some (0, spec_rewrite F) :=
  fix_line_issues_2_ref B F h0 hfit

/-- C4 at `BUFSIZ = 8192` on `TAB a CR TAB space LF space LF b`: the TAB in
column 0 and the one behind `a` are treated alike when they are not
trailing. -/
theorem C4_rewriter_reference_witness :
    fix_line_issues_2 8192 [9, 97, 13, 9, 98, 9, 32, 10, 32, 10, 98] =
      some (0, [32, 32, 32, 32, 32, 32, 32, 32, 97, 32, 32, 32, 32, 32, 32, 32, 32, 98, 10,
        10, 98, 10]) :=
  C4_rewriter_reference 8192 [9, 97, 13, 9, 98, 9, 32, 10, 32, 10, 98] (by decide) (by decide)

/-- C5.  For every body `P` that is empty or does not end in LF and every
`n`, `fix_tail_issues` returns 0 and (a) turns the file of `n` LFs (the
empty file for `n = 0`) into the empty file, (b) turns `P` followed by
`n ≥ 1` LFs into `P` followed by one LF when `P` is not empty, (c) leaves
the file `P` as it is. -/
theorem C5_tail_reference (P : List Nat) (n : Nat) (hP : P.getLast? ≠ some 10) :
    fix_tail_issues (List.replicate n 10) = some (0, []) ∧
    (P ≠ [] → 1 ≤ n → fix_tail_issues (P ++ List.replicate n 10) = some (0, P ++ [10])) ∧
    fix_tail_issues P = some (0, P) := by
  refine ⟨fix_tail_issues_lfs n, ?_, ?_⟩
  · intro hne hn
    rw [fix_tail_issues_body P n hP]
    have : n ≠ 0 := by omega
    simp [this, hne]
  · have := fix_tail_issues_body P 0 hP
    simpa using this

/-- C5 on the body `x` and 20 LFs, a count above the window of 16. -/
theorem C5_tail_reference_witness :
    fix_tail_issues (List.replicate 20 10) = some (0, []) ∧
    fix_tail_issues ([120] ++ List.replicate 20 10) = some (0, [120, 10]) ∧
    fix_tail_issues [120] = some (0, [120]) :=
  ⟨(C5_tail_reference [120] 20 (by decide)).1,
   (C5_tail_reference [120] 20 (by decide)).2.1 (by decide) (by decide),
   (C5_tail_reference [120] 20 (by decide)).2.2⟩

/-- C6.  For every file without NUL bytes: `has_line_issues` returns 0
exactly when the file is a concatenation of LF-terminated lines each of which
has at most `BUFSIZ - 1` bytes with its LF, holds no CR and no TAB and has no
space right before its LF; it returns 1 in every other case; it returns 0 on
the empty file and 1 on a non-empty file that does not end in LF. -/
theorem C6_line_detector (B : Nat) (F : List Nat) (h0 : 0 ∉ F) :
    (has_line_issues B F = some 0 ↔
      ∃ ls, F = spec_join ls ∧ ∀ l ∈ ls, spec_clean_line B l) ∧
    (has_line_issues B F = some 0 ∨ has_line_issues B F = some 1) ∧
    has_line_issues B [] = some 0 ∧
    (F ≠ [] → F.getLast? ≠ some 10 → has_line_issues B F = some 1) := by
  have hiff : has_line_issues B F = some 0 ↔
      ∃ ls, F = spec_join ls ∧ ∀ l ∈ ls, spec_clean_line B l := by
    constructor
    · intro h
      exact has_line_loop_zero B _ F h0 h
    · rintro ⟨ls, hF, hcl⟩
      have hcl1 : ∀ l ∈ ls, spec_clean_line B l ∧ 0 ∉ l := by
        intro l hl
        refine ⟨hcl l hl, fun h => h0 ?_⟩
        rw [hF]
        exact mem_spec_join ls l 0 hl h
      unfold has_line_issues
      rw [hF]
      exact has_line_loop_clean B _ ls hcl1 (by simp)
  refine ⟨hiff, has_line_issues_total B F, by simp [has_line_issues, has_line_issues_loop, fgets],
    ?_⟩
  intro hne hlast
  rcases has_line_issues_total B F with h | h
  · obtain ⟨ls, hF, _⟩ := hiff.1 h
    rcases list_nil_or_snoc ls with h1 | ⟨t, l, h1⟩
    · subst h1; exact absurd hF hne
    · subst h1
      rw [spec_join_concat] at hF
      exact absurd (by rw [hF]; simp) hlast
  · exact h

/-- C6 at `BUFSIZ = 8192` on `a b LF LF c`, which lacks the final LF. -/
theorem C6_line_detector_witness :
    (has_line_issues 8192 [97, 98, 10, 10, 99] = some 0 ↔
      ∃ ls, [97, 98, 10, 10, 99] = spec_join ls ∧ ∀ l ∈ ls, spec_clean_line 8192 l) ∧
    (has_line_issues 8192 [97, 98, 10, 10, 99] = some 0 ∨
      has_line_issues 8192 [97, 98, 10, 10, 99] = some 1) ∧
    has_line_issues 8192 [] = some 0 ∧
    has_line_issues 8192 [97, 98, 10, 10, 99] = some 1 :=
  ⟨(C6_line_detector 8192 [97, 98, 10, 10, 99] (by decide)).1,
   (C6_line_detector 8192 [97, 98, 10, 10, 99] (by decide)).2.1,
   (C6_line_detector 8192 [97, 98, 10, 10, 99] (by decide)).2.2.1,
   (C6_line_detector 8192 [97, 98, 10, 10, 99] (by decide)).2.2.2 (by decide) (by decide)⟩

/-- C7.  For every file: `has_tail_issues` returns 1 exactly when the file
has at least two bytes and its last two bytes are both LF, or is the single
LF; in every other case (the empty file, a single byte that is not LF, a
file of two or more bytes that ends in at most one LF) it returns 0. -/
theorem C7_tail_detector (F : List Nat) :
    (has_tail_issues F = 1 ↔ (2 ≤ F.length ∧ ∃ P, F = P ++ [10, 10]) ∨ F = [10]) ∧
    (has_tail_issues F = 0 ∨ has_tail_issues F = 1) := by
  refine ⟨?_, has_tail_issues_total F⟩
  rcases file_cases F with h | ⟨c, h⟩ | ⟨P, a, b, h⟩
  · subst h
    simp [has_tail_issues_nil]
  · subst h
    rw [has_tail_issues_single]
    by_cases hc : c = 10 <;> simp [hc]
  · subst h
    rw [has_tail_issues_two]
    constructor
    · intro h1
      have h2 : a = 10 ∧ b = 10 := by
        by_contra hn
        simp [hn] at h1
      left
      exact ⟨by simp, P, by rw [h2.1, h2.2]⟩
    · rintro (⟨_, Q, hQ⟩ | h1)
      · have h2 := List.append_inj_right' hQ rfl
        simp only [List.cons.injEq, and_true] at h2
        simp [h2.1, h2.2]
      · have := congrArg List.length h1
        simp at this

/-- C8.  With `BUFSIZ` at least 2: `pepclean` on the empty file finds no
check to run, returns 0 and leaves the empty file; on a file of `N ≥ 1` LFs
it returns 1 and leaves the empty file. -/
theorem C8_empty_file_law (B : Nat) (hB : 2 ≤ B) (N : Nat) (hN : 1 ≤ N) :
    needs_work (checklist B) [] = some (0, [0, 0]) ∧ pepclean B [] = some (0, []) ∧
      pepclean B (List.replicate N 10) = some (1, []) := by
  have hL0 : has_line_issues B [] = some 0 := has_line_issues_lfs B hB 0
  refine ⟨needs_work_clean B [] hL0 has_tail_issues_nil,
    pepclean_clean B [] hL0 has_tail_issues_nil, ?_⟩
  exact pepclean_tail B _ [] (has_line_issues_lfs B hB N) (has_tail_issues_lfs N hN)
    (fix_tail_issues_lfs N)

/-- C8 at `BUFSIZ = 8192` on three LFs. -/
theorem C8_empty_file_law_witness :
    needs_work (checklist 8192) [] = some (0, [0, 0]) ∧ pepclean 8192 [] = some (0, []) ∧
      pepclean 8192 (List.replicate 3 10) = some (1, []) :=
  C8_empty_file_law 8192 (by decide) 3 (by decide)

/-- C9.  For every non-empty list of per-file results in {-1, 0, 1}: the exit
code of `main` is 0 exactly when every result is 0, 1 exactly when some
result is -1, and 2 exactly when no result is -1 and some result is 1. -/
theorem C9_exit_code (rs : List Int) (hne : rs ≠ [])
    (hrs : ∀ r ∈ rs, r = -1 ∨ r = 0 ∨ r = 1) :
    (main rs = 0 ↔ ∀ r ∈ rs, r = 0) ∧
    (main rs = 1 ↔ ∃ r ∈ rs, r = -1) ∧
    (main rs = 2 ↔ (∀ r ∈ rs, r ≠ -1) ∧ ∃ r ∈ rs, r = 1) := by
  have hloop := main_loop_eq rs 0 hrs (by simp)
  have hmain : main rs =
      if (-1 : Int) ∈ rs then 1 else if (1 : Int) ∈ rs then 2 else 0 := by
    simp only [main, hne, if_false, hloop]
    by_cases hm : (-1 : Int) ∈ rs <;> by_cases hp : (1 : Int) ∈ rs <;> simp [hm, hp]
  have hall : (∀ r ∈ rs, r = 0) ↔ ((-1 : Int) ∉ rs ∧ (1 : Int) ∉ rs) := by
    constructor
    · intro h
      exact ⟨fun hm => by have := h _ hm; omega, fun hp => by have := h _ hp; omega⟩
    · rintro ⟨hm, hp⟩ r hr
      rcases hrs r hr with h | h | h
      · exact absurd (h ▸ hr) hm
      · exact h
      · exact absurd (h ▸ hr) hp
  have hex1 : (∃ r ∈ rs, r = -1) ↔ (-1 : Int) ∈ rs := by
    constructor
    · rintro ⟨r, hr, rfl⟩; exact hr
    · intro h; exact ⟨-1, h, rfl⟩
  have hex2 : (∃ r ∈ rs, r = 1) ↔ (1 : Int) ∈ rs := by
    constructor
    · rintro ⟨r, hr, rfl⟩; exact hr
    · intro h; exact ⟨1, h, rfl⟩
  have hno : (∀ r ∈ rs, r ≠ -1) ↔ (-1 : Int) ∉ rs := by
    constructor
    · intro h hm; exact h _ hm rfl
    · intro h r hr hr1; exact h (hr1 ▸ hr)
  rw [hmain, hall, hex1, hex2, hno]
  by_cases hm : (-1 : Int) ∈ rs <;> by_cases hp : (1 : Int) ∈ rs <;> simp [hm, hp]

/-- C9 on the results 1, -1, 0: one file fixed, one failed, one unchanged. -/
theorem C9_exit_code_witness :
    (main [1, -1, 0] = 0 ↔ ∀ r ∈ [1, -1, 0], r = 0) ∧
    (main [1, -1, 0] = 1 ↔ ∃ r ∈ [1, -1, 0], r = -1) ∧
    (main [1, -1, 0] = 2 ↔ (∀ r ∈ [1, -1, 0], r ≠ -1) ∧ ∃ r ∈ [1, -1, 0], r = 1) :=
  C9_exit_code [1, -1, 0] (by decide) (by decide)

/-- C10, refuted as stated.  With `BUFSIZ = 8192` the rewriter and the
pipeline do not produce the 11 bytes `a`, 8 spaces, `b`, LF from
`a space TAB b CR LF`: the result has 12 bytes. -/
theorem C10_counterexample :
    fix_line_issues_2 8192 [97, 32, 9, 98, 13, 10] ≠
      some (0, [97, 32, 32, 32, 32, 32, 32, 32, 32, 98, 10]) ∧
    pepclean 8192 [97, 32, 9, 98, 13, 10] ≠
      some (1, [97, 32, 32, 32, 32, 32, 32, 32, 32, 98, 10]) ∧
    (fix_line_issues_2 8192 [97, 32, 9, 98, 13, 10]).map (fun p => p.2.length) = some 12 := by
  refine ⟨by decide, by decide, by decide⟩

/-- C10, amended.  With `BUFSIZ` at least 7, on `a space TAB b CR LF` the
rewriter writes, and the pipeline leaves, `a`, the space, the 8 spaces of
the TAB, `b`, LF: 12 bytes, with 9 spaces between `a` and `b`. -/
theorem C10_scenario_one (B : Nat) (hB : 7 ≤ B) :
    fix_line_issues_2 B [97, 32, 9, 98, 13, 10] =
      some (0, [97, 32, 32, 32, 32, 32, 32, 32, 32, 32, 98, 10]) ∧
    pepclean B [97, 32, 9, 98, 13, 10] =
      some (1, [97, 32, 32, 32, 32, 32, 32, 32, 32, 32, 98, 10]) := by
  have hfit : ∀ l ∈ spec_lines [97, 32, 9, 98, 13, 10], l.length + 1 ≤ B - 1 := by
    intro l hl
    have : l = [97, 32, 9, 98, 13] := by
      have h1 : spec_lines [97, 32, 9, 98, 13, 10] = [[97, 32, 9, 98, 13]] := by decide
      rw [h1] at hl
      simpa using hl
    subst this
    simp; omega
  have hfix : fix_line_issues_2 B [97, 32, 9, 98, 13, 10] =
      some (0, [97, 32, 32, 32, 32, 32, 32, 32, 32, 32, 98, 10]) := by
    rw [fix_line_issues_2_ref B _ (by decide) hfit]
    have : spec_rewrite [97, 32, 9, 98, 13, 10] =
        [97, 32, 32, 32, 32, 32, 32, 32, 32, 32, 98, 10] := by decide
    rw [this]
  refine ⟨hfix, ?_⟩
  have hL : has_line_issues B [97, 32, 9, 98, 13, 10] = some 1 := by
    have h := has_line_loop_line B [97, 32, 9, 98, 13, 10].length [97, 32, 9, 98, 13] []
      (by decide) (by decide) (by simp; omega)
    simpa [has_line_issues] using h
  exact pepclean_line B _ _ hL (by decide) (fix_line_issues_of_loop B _ _ hfix)

/-- C10, amended, at `BUFSIZ = 8192`. -/
theorem C10_scenario_one_witness :
    fix_line_issues_2 8192 [97, 32, 9, 98, 13, 10] =
      some (0, [97, 32, 32, 32, 32, 32, 32, 32, 32, 32, 98, 10]) ∧
    pepclean 8192 [97, 32, 9, 98, 13, 10] =
      some (1, [97, 32, 32, 32, 32, 32, 32, 32, 32, 32, 98, 10]) :=
  C10_scenario_one 8192 (by decide)

/-! The rewriter, read by read -/

/-- A LF-terminated line that fits into the buffer is written in normal
form, and the loop goes on behind it. -/
theorem fix_loop_line (B fuel : Nat) (l rest out : List Nat) (hl : 10 ∉ l) (h0 : 0 ∉ l)
    (hlen : l.length + 1 ≤ B - 1) :
    fix_line_issues_2_loop B (fuel + 1) (l ++ 10 :: rest) out =
      fix_line_issues_2_loop B fuel rest (out ++ spec_norm l) := by
  have hs : strlen (l ++ [10]) = l.length + 1 := by
    rw [strlen_of_no_nul _ (by simp [h0])]; simp
  rw [fix_line_issues_2_loop, fgets_of_ne_nil _ _ (by simp),
    fgets_copy_line l rest (B - 1) hl (by omega)]
  simp only [hs, Nat.succ_ne_zero, if_false, fix_line_lf B l h0]

/-- An unterminated last line that does not fill the buffer is written in
normal form, and the function returns. -/
theorem fix_loop_last (B fuel : Nat) (t out : List Nat) (hne : t ≠ []) (h10 : 10 ∉ t)
    (h0 : 0 ∉ t) (hlen : t.length + 1 ≤ B - 1) :
    fix_line_issues_2_loop B (fuel + 2) t out = some (0, out ++ spec_norm t) := by
  have hs : strlen t = t.length := strlen_of_no_nul _ h0
  have hpos : 0 < t.length := List.length_pos.2 hne
  rw [fix_line_issues_2_loop, fgets_of_ne_nil _ _ hne,
    fgets_copy_last t (B - 1) h10 (by omega)]
  simp only [hs, Nat.ne_of_gt hpos, if_false, fix_line_unterminated B t h0 h10 (by omega)]
  simp [fix_line_issues_2_loop, fgets]

theorem fix_loop_nil (B fuel : Nat) (out : List Nat) :
    fix_line_issues_2_loop B (fuel + 1) [] out = some (0, out) := by
  simp [fix_line_issues_2_loop, fgets]

/-- What the next read meets: the end of the stream, a LF-terminated line
that fits, a run without LF that fills the buffer, or an unterminated last
line that does not fill it. -/
theorem read_cases (B : Nat) (hB : 2 ≤ B) (s : List Nat) :
    s = [] ∨
    (∃ l rest, s = l ++ 10 :: rest ∧ 10 ∉ l ∧ l.length + 1 ≤ B - 1) ∨
    (∃ c rest, s = c ++ rest ∧ c ≠ [] ∧ 10 ∉ c ∧ c.length = B - 1) ∨
    (s ≠ [] ∧ 10 ∉ s ∧ s.length + 1 ≤ B - 1) := by
  rcases stream_cases s with h | ⟨l, rest, hl, h⟩ | ⟨h10, hne⟩
  · left; exact h
  · by_cases hlen : l.length + 1 ≤ B - 1
    · right; left; exact ⟨l, rest, h, hl, hlen⟩
    · right; right; left
      refine ⟨l.take (B - 1), l.drop (B - 1) ++ 10 :: rest, ?_, ?_, ?_, ?_⟩
      · rw [← List.append_assoc, List.take_append_drop]; exact h
      · intro hnil
        have h1 : (List.take (B - 1) l).length = B - 1 := by
          rw [List.length_take]; omega
        rw [hnil] at h1
        simp at h1
        omega
      · intro hm; exact hl (List.mem_of_mem_take hm)
      · rw [List.length_take]; omega
  · by_cases hlen : s.length + 1 ≤ B - 1
    · right; right; right; exact ⟨hne, h10, hlen⟩
    · right; right; left
      refine ⟨s.take (B - 1), s.drop (B - 1), (List.take_append_drop _ _).symm, ?_, ?_, ?_⟩
      · intro hnil
        have h1 : (List.take (B - 1) s).length = B - 1 := by
          rw [List.length_take]; omega
        rw [hnil] at h1
        simp at h1
        omega
      · intro hm; exact h10 (List.mem_of_mem_take hm)
      · rw [List.length_take]; omega

theorem spec_lines_ne_nil (s : List Nat) (h : s ≠ []) : spec_lines s ≠ [] := by
  cases s with
  | nil => exact absurd rfl h
  | cons c s =>
    by_cases hc : c = 10
    · simp [spec_lines, hc]
    · simp only [spec_lines, hc, if_false]
      cases spec_lines s <;> simp

/-- The lines of a stream behind a run without LF. -/
theorem spec_lines_chunk (c rest : List Nat) (hc : 10 ∉ c) (l0 : List Nat)
    (ls : List (List Nat)) (h : spec_lines rest = l0 :: ls) :
    spec_lines (c ++ rest) = (c ++ l0) :: ls := by
  induction c with
  | nil => simpa using h
  | cons a c ih =>
    have ha : a ≠ 10 := by intro h1; simp [h1] at hc
    have hc1 : 10 ∉ c := by intro h1; simp [h1] at hc
    simp [spec_lines, ha, ih hc1]

/-- The hypothesis of an output that ends in LF: the stream ends in LF, or
the length of its unterminated last line is no multiple of `B - 1`. -/
theorem last_ok_chunk (B : Nat) (c rest : List Nat) (hc : 10 ∉ c) (hlen : c.length = B - 1)
    (hrest : rest ≠ [])
    (h : (c ++ rest).getLast? = some 10 ∨
      ∃ t, (spec_lines (c ++ rest)).getLast? = some t ∧ t.length % (B - 1) ≠ 0) :
    rest.getLast? = some 10 ∨
      ∃ t, (spec_lines rest).getLast? = some t ∧ t.length % (B - 1) ≠ 0 := by
  rcases h with h | ⟨t, ht, hmod⟩
  · left; rwa [List.getLast?_append_of_ne_nil _ hrest] at h
  · right
    obtain ⟨l0, ls, hls⟩ : ∃ l0 ls, spec_lines rest = l0 :: ls := by
      cases hsl : spec_lines rest with
      | nil => exact absurd hsl (spec_lines_ne_nil rest hrest)
      | cons l0 ls => exact ⟨l0, ls, rfl⟩
    rw [spec_lines_chunk c rest hc l0 ls hls] at ht
    rw [hls]
    cases ls with
    | nil =>
      have : t = c ++ l0 := by simpa using ht.symm
      subst this
      refine ⟨l0, by simp, ?_⟩
      simp only [List.length_append, hlen] at hmod
      intro h0
      apply hmod
      rw [Nat.add_mod, h0]
      simp
    | cons l1 ls =>
      refine ⟨t, ?_, hmod⟩
      have h1 : (c ++ l0) :: l1 :: ls = [c ++ l0] ++ (l1 :: ls) := rfl
      have h2 : l0 :: l1 :: ls = [l0] ++ (l1 :: ls) := rfl
      rw [h1, List.getLast?_append_of_ne_nil _ (by simp)] at ht
      rw [h2, List.getLast?_append_of_ne_nil _ (by simp)]
      exact ht

theorem last_ok_line (B : Nat) (l rest : List Nat) (hl : 10 ∉ l) (hrest : rest ≠ [])
    (h : (l ++ 10 :: rest).getLast? = some 10 ∨
      ∃ t, (spec_lines (l ++ 10 :: rest)).getLast? = some t ∧ t.length % (B - 1) ≠ 0) :
    rest.getLast? = some 10 ∨
      ∃ t, (spec_lines rest).getLast? = some t ∧ t.length % (B - 1) ≠ 0 := by
  rcases h with h | ⟨t, ht, hmod⟩
  · left
    have h1 : l ++ 10 :: rest = (l ++ [10]) ++ rest := by simp
    rwa [h1, List.getLast?_append_of_ne_nil _ hrest] at h
  · right
    refine ⟨t, ?_, hmod⟩
    rw [spec_lines_line l rest hl] at ht
    have h1 : l :: spec_lines rest = [l] ++ spec_lines rest := rfl
    rwa [h1, List.getLast?_append_of_ne_nil _ (spec_lines_ne_nil rest hrest)] at ht

theorem spec_norm_last (l : List Nat) : (spec_norm l).getLast? = some 10 := by
  simp [spec_norm]

/-- The output of the rewriter ends in LF unless the last read fills the
buffer without meeting a LF. -/
theorem fix_loop_ends_lf (B : Nat) (hB : 2 ≤ B) (fuel : Nat) (s out : List Nat)
    (hfuel : s.length < fuel) (h0 : 0 ∉ s) (hne : s ≠ [])
    (hlast : s.getLast? = some 10 ∨
      ∃ t, (spec_lines s).getLast? = some t ∧ t.length % (B - 1) ≠ 0) :
    ∃ G, fix_line_issues_2_loop B fuel s out = some (0, G) ∧ G.getLast? = some 10 := by
  induction fuel generalizing s out with
  | zero => omega
  | succ fuel ih =>
    rcases read_cases B hB s with h | ⟨l, rest, h, hl, hlen⟩ | ⟨c, rest, h, hcne, hc, hclen⟩ |
      ⟨_, h10, hlen⟩
    · exact absurd h hne
    · subst h
      have hl0 : 0 ∉ l := by intro h; apply h0; simp [h]
      have hr0 : 0 ∉ rest := by intro h; apply h0; simp [h]
      rw [fix_loop_line B fuel l rest out hl hl0 hlen]
      by_cases hr : rest = []
      · subst hr
        cases fuel with
        | zero => simp at hfuel
        | succ fuel =>
          rw [fix_loop_nil]
          refine ⟨_, rfl, ?_⟩
          rw [List.getLast?_append_of_ne_nil _ (by simp [spec_norm])]
          exact spec_norm_last l
      · exact ih rest _ (by simp at hfuel; omega) hr0 hr (last_ok_line B l rest hl hr hlast)
    · subst h
      have hc0 : 0 ∉ c := by intro h; apply h0; simp [h]
      have hr0 : 0 ∉ rest := by intro h; apply h0; simp [h]
      rw [fix_loop_long_chunk B fuel c rest out hcne hc hc0 hclen]
      by_cases hr : rest = []
      · subst hr
        exfalso
        rcases hlast with h | ⟨t, ht, hmod⟩
        · simp only [List.append_nil] at h
          exact hc (mem_of_getLast_eq c 10 h)
        · simp only [List.append_nil] at ht
          rw [spec_lines_last c hc hcne] at ht
          have : t = c := by simpa using ht.symm
          subst this
          apply hmod
          rw [hclen]
          exact Nat.mod_self _
      · have hcpos : 0 < c.length := List.length_pos.2 hcne
        exact ih rest _ (by simp at hfuel; omega) hr0 hr
          (last_ok_chunk B c rest hc hclen hr hlast)
    · cases fuel with
      | zero =>
        have := List.length_pos.2 hne
        omega
      | succ fuel =>
        rw [fix_loop_last B fuel s out hne h10 h0 hlen]
        refine ⟨_, rfl, ?_⟩
        rw [List.getLast?_append_of_ne_nil _ (by simp [spec_norm])]
        exact spec_norm_last s

theorem exists_join_of_ends_lf_aux (n : Nat) (G : List Nat) (hn : G.length ≤ n)
    (h : G.getLast? = some 10) : ∃ ls, G = spec_join ls ∧ ∀ l ∈ ls, 10 ∉ l := by
  induction n generalizing G with
  | zero =>
    have : G = [] := List.length_eq_zero.1 (by omega)
    subst this
    simp at h
  | succ n ih =>
    rcases stream_cases G with h1 | ⟨l, rest, hl, h1⟩ | ⟨h10, _⟩
    · subst h1; simp at h
    · subst h1
      by_cases hr : rest = []
      · subst hr
        exact ⟨[l], by simp [spec_join], by simpa using hl⟩
      · have h2 : l ++ 10 :: rest = (l ++ [10]) ++ rest := by simp
        rw [h2, List.getLast?_append_of_ne_nil _ hr] at h
        obtain ⟨ls, h3, h4⟩ := ih rest (by simp at hn; omega) h
        refine ⟨l :: ls, by rw [spec_join_cons, ← h3], ?_⟩
        intro l1 hl1
        rcases List.mem_cons.1 hl1 with h5 | h5
        · rw [h5]; exact hl
        · exact h4 l1 h5
    · exact absurd (mem_of_getLast_eq G 10 h) h10

/-- A file that ends in LF is made of LF-terminated lines. -/
theorem exists_join_of_ends_lf (G : List Nat) (h : G.getLast? = some 10) :
    ∃ ls, G = spec_join ls ∧ ∀ l ∈ ls, 10 ∉ l :=
  exists_join_of_ends_lf_aux G.length G (le_refl _) h

/-- A line without CR and TAB that does not end in a space is its own
normal form. -/
theorem spec_norm_of_clean (l : List Nat) (h13 : 13 ∉ l) (h9 : 9 ∉ l)
    (hsp : l.getLast? ≠ some 32) : spec_norm l = l ++ [10] := by
  have hrd : l.rdropWhile spec_is_ws = l := by
    rcases list_nil_or_snoc l with h | ⟨t, c, h⟩
    · subst h; simp [List.rdropWhile]
    · subst h
      have hc : ¬ spec_is_ws c = true := by
        intro hws
        rcases (spec_is_ws_iff c).1 hws with h1 | h1 | h1
        · apply hsp; simp [h1]
        · apply h9; simp [h1]
        · apply h13; simp [h1]
      exact List.rdropWhile_concat_neg _ _ _ hc
  unfold spec_norm
  rw [hrd, flatMap_expand_of_clean l h13 h9]

/-- The rewriter on clean lines followed by a clean unterminated line
appends the missing LF and changes nothing else. -/
theorem fix_loop_missing_lf (B fuel : Nat) (ls : List (List Nat)) (t out : List Nat)
    (hls : ∀ l ∈ ls, spec_clean_line B l ∧ 0 ∉ l) (ht : spec_clean_line B t ∧ 0 ∉ t)
    (htne : t ≠ []) (hfuel : (spec_join ls ++ t).length < fuel) :
    fix_line_issues_2_loop B fuel (spec_join ls ++ t) out =
      some (0, out ++ (spec_join ls ++ t ++ [10])) := by
  induction ls generalizing fuel out with
  | nil =>
    obtain ⟨⟨h10, hlen, h13, h9, hsp⟩, h0⟩ := ht
    have hpos : 0 < t.length := List.length_pos.2 htne
    obtain ⟨f, rfl⟩ : ∃ f, fuel = f + 2 := ⟨fuel - 2, by simp [spec_join] at hfuel; omega⟩
    simp only [spec_join_nil, List.nil_append]
    rw [fix_loop_last B f t out htne h10 h0 hlen, spec_norm_of_clean t h13 h9 hsp]
  | cons l ls ih =>
    obtain ⟨⟨h10, hlen, h13, h9, hsp⟩, h0⟩ := hls l (by simp)
    obtain ⟨f, rfl⟩ : ∃ f, fuel = f + 1 := ⟨fuel - 1, by omega⟩
    rw [spec_join_cons, List.append_assoc, List.cons_append,
      fix_loop_line B f l _ out h10 h0 hlen, spec_norm_of_clean l h13 h9 hsp]
    rw [ih f _ (fun l1 h1 => hls l1 (by simp [h1]))]
    · simp
    · rw [spec_join_cons] at hfuel
      simp only [List.length_append, List.length_cons] at hfuel ⊢
      omega

/-- The rewriter copies an unterminated line of `BUFSIZ - 1` letters and
adds no LF. -/
theorem full_line_fix (B : Nat) (hB : 2 ≤ B) :
    fix_line_issues_2 B (List.replicate (B - 1) 97) = some (0, List.replicate (B - 1) 97) := by
  have hne : List.replicate (B - 1) 97 ≠ [] := by
    intro h
    have := congrArg List.length h
    simp at this; omega
  have h := fix_loop_long_chunk B (List.replicate (B - 1) 97).length
    (List.replicate (B - 1) 97) [] [] hne (replicate_no_mem _ _ _ (by omega))
    (replicate_no_mem _ _ _ (by omega)) (by simp)
  simp only [List.append_nil, List.nil_append] at h
  unfold fix_line_issues_2
  rw [h]
  obtain ⟨k, hk⟩ : ∃ k, (List.replicate (B - 1) 97).length = k + 1 :=
    ⟨B - 2, by simp; omega⟩
  rw [hk, fix_loop_nil]

theorem replicate_succ_last (k a : Nat) :
    (List.replicate (k + 1) a).getLast? = some a ∧ List.replicate (k + 1) a ≠ [] := by
  rw [List.replicate_succ']
  simp

/-- C11, refuted as stated.  With `BUFSIZ = 8192` the non-empty file of 8191
letters without LF is written as it is: the output does not end in LF. -/
theorem C11_counterexample :
    fix_line_issues_2 8192 (List.replicate 8191 97) = some (0, List.replicate 8191 97) ∧
      (List.replicate 8191 97).getLast? = some 97 ∧ 0 ∉ List.replicate 8191 97 ∧
      List.replicate 8191 97 ≠ [] := by
  exact ⟨full_line_fix 8192 (by norm_num), (replicate_succ_last 8190 97).1,
    replicate_no_mem _ _ _ (by norm_num), (replicate_succ_last 8190 97).2⟩

/-- C11, amended.  With `BUFSIZ` at least 2, for every non-empty file
without NUL bytes that ends in LF or whose unterminated last line has a
length that is no multiple of `BUFSIZ - 1`: `fix_line_issues_2` returns 0,
its output ends in LF and is a concatenation of segments without LF, each
followed by one LF.  In particular, on clean lines followed by a clean
unterminated line it writes the same bytes with one LF appended. -/
theorem C11_output_terminated (B : Nat) (hB : 2 ≤ B) (F : List Nat) (hne : F ≠ [])
    (h0 : 0 ∉ F)
    (hlast : F.getLast? = some 10 ∨
      ∃ t, (spec_lines F).getLast? = some t ∧ t.length % (B - 1) ≠ 0)
    (ls : List (List Nat)) (t : List Nat)
    (hls : ∀ l ∈ ls, spec_clean_line B l ∧ 0 ∉ l) (ht : spec_clean_line B t ∧ 0 ∉ t)
    (htne : t ≠ []) :
    (∃ G, fix_line_issues_2 B F = some (0, G) ∧ G.getLast? = some 10 ∧
      ∃ gs, G = spec_join gs ∧ ∀ g ∈ gs, 10 ∉ g) ∧
    fix_line_issues_2 B (spec_join ls ++ t) = some (0, spec_join ls ++ t ++ [10]) := by
  constructor
  · obtain ⟨G, h1, h2⟩ := fix_loop_ends_lf B hB (F.length + 1) F [] (by simp) h0 hne hlast
    exact ⟨G, h1, h2, exists_join_of_ends_lf G h2⟩
  · have := fix_loop_missing_lf B ((spec_join ls ++ t).length + 1) ls t [] hls ht htne (by simp)
    simpa [fix_line_issues_2] using this

/-- C11, amended, at `BUFSIZ = 8192` on `line1 LF line2`. -/
theorem C11_output_terminated_witness :
    (∃ G, fix_line_issues_2 8192 [108, 105, 110, 101, 49, 10, 108, 105, 110, 101, 50] =
        some (0, G) ∧ G.getLast? = some 10 ∧ ∃ gs, G = spec_join gs ∧ ∀ g ∈ gs, 10 ∉ g) ∧
    fix_line_issues_2 8192 [108, 105, 110, 101, 49, 10, 108, 105, 110, 101, 50] =
      some (0, [108, 105, 110, 101, 49, 10, 108, 105, 110, 101, 50, 10]) :=
  C11_output_terminated 8192 (by decide) [108, 105, 110, 101, 49, 10, 108, 105, 110, 101, 50]
    (by decide) (by decide) (Or.inr ⟨[108, 105, 110, 101, 50], by decide, by decide⟩)
    [[108, 105, 110, 101, 49]] [108, 105, 110, 101, 50]
    (by
      intro l hl
      have : l = [108, 105, 110, 101, 49] := by simpa using hl
      subst this
      exact ⟨by unfold spec_clean_line; decide, by decide⟩)
    ⟨by unfold spec_clean_line; decide, by decide⟩ (by decide)

/-- A line of `n` TABs, a letter and a LF has no NUL and fits into one
read when `n + 2 ≤ B - 1`. -/
theorem tab_line_fits (B n : Nat) (hfit : n + 2 ≤ B - 1) :
    0 ∉ List.replicate n 9 ++ [120, 10] ∧
      ∀ l ∈ spec_lines (List.replicate n 9 ++ [120, 10]), l.length + 1 ≤ B - 1 := by
  constructor
  · intro h
    rcases List.mem_append.1 h with h1 | h1
    · exact replicate_no_mem _ _ _ (by omega) h1
    · simp at h1
  · intro l hl
    rw [tab_line_lines] at hl
    have : l = List.replicate n 9 ++ [120] := by simpa using hl
    subst this
    simpa using hfit

/-- The collapser leaves a line of spaces, a letter and one LF as it is. -/
theorem space_line_tail (m : Nat) :
    fix_tail_issues (List.replicate m 32 ++ [120, 10]) =
      some (0, List.replicate m 32 ++ [120, 10]) := by
  have h := fix_tail_issues_body (List.replicate m 32 ++ [120]) 1 (by simp)
  simpa using h

/-- C12, refuted as stated.  With `BUFSIZ = 8192` the line of 1024 TABs, a
letter and a LF has no NUL and fits into one read; `fix_line_issues` turns
it into 8192 spaces, the letter and a LF, `fix_tail_issues` leaves that as
it is, and `has_line_issues` reports an issue on the result. -/
theorem C12_counterexample :
    (0 ∉ List.replicate 1024 9 ++ [120, 10] ∧
      ∀ l ∈ spec_lines (List.replicate 1024 9 ++ [120, 10]), l.length + 1 ≤ 8192 - 1) ∧
    fix_line_issues 8192 (List.replicate 1024 9 ++ [120, 10]) =
      some (0, List.replicate 8192 32 ++ [120, 10]) ∧
    fix_tail_issues (List.replicate 8192 32 ++ [120, 10]) =
      some (0, List.replicate 8192 32 ++ [120, 10]) ∧
    has_line_issues 8192 (List.replicate 8192 32 ++ [120, 10]) = some 1 :=
  ⟨tab_line_fits 8192 1024 (by norm_num),
   fix_line_issues_of_loop 8192 _ _ (tab_line_fix 8192 1024 (by norm_num)),
   space_line_tail 8192, space_line_detect 8192 8192 (by norm_num)⟩

/-- C12, amended.  For every file without NUL bytes in which every line
fits into one bounded read (at most `BUFSIZ - 1` bytes with its LF, an
unterminated last line counted with the LF it lacks) both before and after
the rewrite: `fix_line_issues` and then `fix_tail_issues` return 0, and on
the file they leave `has_line_issues` and `has_tail_issues` both return 0. -/
theorem C12_clean_after_fix (B : Nat) (F : List Nat) (h0 : 0 ∉ F)
    (hin : ∀ l ∈ spec_lines F, l.length + 1 ≤ B - 1)
    (hout : ∀ l ∈ spec_lines F, (spec_norm l).length ≤ B - 1) :
    ∃ G R, fix_line_issues B F = some (0, G) ∧ fix_tail_issues G = some (0, R) ∧
      has_line_issues B R = some 0 ∧ has_tail_issues R = 0 := by
  obtain ⟨ls, hls, hcl⟩ := spec_rewrite_clean B F h0 hout
  obtain ⟨R, hR, hRL, hRT⟩ := fix_tail_issues_clean_lines B (spec_rewrite F) ls hls hcl
  exact ⟨spec_rewrite F, R, fix_line_issues_of_loop B F _ (fix_line_issues_2_ref B F h0 hin),
    hR, hRL, hRT⟩

/-- C12, amended, at `BUFSIZ = 8192` on `a LF space LF`, where the rewrite
makes a second trailing LF that the collapser then removes. -/
theorem C12_clean_after_fix_witness :
    ∃ G R, fix_line_issues 8192 [97, 10, 32, 10] = some (0, G) ∧
      fix_tail_issues G = some (0, R) ∧
      has_line_issues 8192 R = some 0 ∧ has_tail_issues R = 0 :=
  C12_clean_after_fix 8192 [97, 10, 32, 10] (by decide) (by decide) (by decide)

/-- The rewriter on a line of `BUFSIZ - 1` letters followed by TAB, space
and LF: the letters are copied, the TAB and the space are dropped. -/
theorem long_line_tail_fix (B : Nat) (hB : 4 ≤ B) :
    fix_line_issues_2 B (List.replicate (B - 1) 97 ++ [9, 32, 10]) =
      some (0, List.replicate (B - 1) 97 ++ [10]) := by
  have hne : List.replicate (B - 1) 97 ≠ [] := by
    intro h
    have := congrArg List.length h
    simp at this; omega
  unfold fix_line_issues_2
  rw [fix_loop_long_chunk B _ _ [9, 32, 10] [] hne (replicate_no_mem _ _ _ (by omega))
    (replicate_no_mem _ _ _ (by omega)) (by simp)]
  rw [fix_loop_ref B _ [9, 32, 10] _ (by simp; omega) (by decide)]
  · have : spec_rewrite [9, 32, 10] = [10] := by decide
    rw [this]; simp
  · intro l hl
    have h1 : spec_lines [9, 32, 10] = [[9, 32]] := by decide
    rw [h1] at hl
    have : l = [9, 32] := by simpa using hl
    subst this
    simp; omega

/-- C13, the code at the failing input.  With `BUFSIZ = 8192`, of the line of
8191 letters followed by TAB, space and LF the rewriter writes the 8191
letters and the LF: the TAB and the space of the over-long line are
dropped, the line is not passed through unmodified. -/
theorem C13_long_line_modified :
    fix_line_issues_2 8192 (List.replicate 8191 97 ++ [9, 32, 10]) =
      some (0, List.replicate 8191 97 ++ [10]) :=
  long_line_tail_fix 8192 (by norm_num)

/-! Detection failures -/

theorem fgets_io_ok (n : Nat) (data : List Nat) :
    fgets_io n ⟨data, false⟩ = (fgets n data).map (fun r => (r.1, ⟨r.2, false⟩)) := by
  cases data with
  | nil => rfl
  | cons c rest => simp [fgets_io, fgets]

/-- Without failures the detector on the stream is the detector on the
file. -/
theorem has_line_issues_io_loop_ok (B fuel : Nat) (data : List Nat) :
    has_line_issues_io_loop B fuel ⟨data, false⟩ = has_line_issues_loop B fuel data := by
  induction fuel generalizing data with
  | zero => rfl
  | succ fuel ih =>
    rw [has_line_issues_io_loop, has_line_issues_loop, fgets_io_ok]
    cases h : fgets B data with
    | none => rfl
    | some r =>
      obtain ⟨buf, rest⟩ := r
      simp only [Option.map_some', ih]

theorem has_line_issues_io_ok (B : Nat) (F : List Nat) :
    has_line_issues_io B true ⟨F, false⟩ = has_line_issues B F := by
  simp [has_line_issues_io, has_line_issues, has_line_issues_io_loop_ok]

theorem has_tail_issues_io_ok (F : List Nat) : has_tail_issues_io true F = has_tail_issues F := by
  simp [has_tail_issues_io, has_tail_issues]

/-- The loop of `needs_work` returns -1 as soon as a detector fails. -/
theorem needs_work_loop_fail (file : List Nat) (checks : List checks_t) (anything : Int)
    (run : List Int) (hterm : ∀ c ∈ checks, ∃ r, c.detect file = some r)
    (hfail : ∃ c ∈ checks, ∃ r, c.detect file = some r ∧ r < 0) :
    ∃ run1, needs_work_loop file checks anything run = some (-1, run1) := by
  induction checks generalizing anything run with
  | nil =>
    obtain ⟨c, hc, _⟩ := hfail
    simp at hc
  | cons c cs ih =>
    obtain ⟨r, hr⟩ := hterm c (by simp)
    by_cases hneg : r < 0
    · exact ⟨run, by simp [needs_work_loop, hr, hneg]⟩
    · have hfail1 : ∃ c1 ∈ cs, ∃ r1, c1.detect file = some r1 ∧ r1 < 0 := by
        obtain ⟨c1, hc1, r1, h1, h2⟩ := hfail
        rcases List.mem_cons.1 hc1 with h3 | h3
        · subst h3
          rw [hr] at h1
          have : r = r1 := by simpa using h1
          omega
        · exact ⟨c1, h3, r1, h1, h2⟩
      obtain ⟨run1, h1⟩ := ih (if anything ≠ 0 ∨ r ≠ 0 then 1 else 0) (run ++ [r])
        (fun c1 hc1 => hterm c1 (by simp [hc1])) hfail1
      exact ⟨run1, by simp only [needs_work_loop, hr, hneg, if_false]; exact h1⟩

/-- C14.  For every registry and every file on which every detector returns
and some detector returns a negative verdict: `needs_work` returns -1 and
`pepclean` returns -1 with the bytes of the file unchanged, whatever the
fixers of the registry would do and whatever the other detectors report. -/
theorem C14_detection_failure (checks : List checks_t) (file : List Nat)
    (hterm : ∀ c ∈ checks, ∃ r, c.detect file = some r)
    (hfail : ∃ c ∈ checks, ∃ r, c.detect file = some r ∧ r < 0) :
    (∃ run, needs_work checks file = some (-1, run)) ∧
      pepclean_checks checks file = some (-1, file) := by
  obtain ⟨run, h⟩ := needs_work_loop_fail file checks 0 [] hterm hfail
  refine ⟨⟨run, h⟩, ?_⟩
  have h1 : needs_work checks file = some (-1, run) := h
  simp [pepclean_checks, h1]

/-- C14 on the registry of the program with `BUFSIZ = 8192` and failing
reads in the tail detector, on `a space LF LF`: the line detector has
reported an issue before the tail detector fails. -/
theorem C14_detection_failure_witness :
    (∃ run, needs_work
        [⟨has_line_issues 8192, fix_line_issues 8192⟩,
         ⟨fun file => some (has_tail_issues_io false file), fix_tail_issues⟩]
        [97, 32, 10, 10] = some (-1, run)) ∧
      pepclean_checks
        [⟨has_line_issues 8192, fix_line_issues 8192⟩,
         ⟨fun file => some (has_tail_issues_io false file), fix_tail_issues⟩]
        [97, 32, 10, 10] = some (-1, [97, 32, 10, 10]) :=
  C14_detection_failure
    [⟨has_line_issues 8192, fix_line_issues 8192⟩,
     ⟨fun file => some (has_tail_issues_io false file), fix_tail_issues⟩]
    [97, 32, 10, 10]
    (by
      intro c hc
      simp only [List.mem_cons, List.mem_singleton, List.not_mem_nil, or_false] at hc
      rcases hc with h | h
      · subst h; exact ⟨1, by decide⟩
      · subst h; exact ⟨-1, by decide⟩)
    ⟨⟨fun file => some (has_tail_issues_io false file), fix_tail_issues⟩, by simp, -1,
      by decide, by decide⟩

/-- C15, the code at the failing input.  With `BUFSIZ = 8192` and a seek
that succeeds: when the line `a LF` is read and the next read fails with an
I/O error, and when the very first read fails, `has_line_issues` returns 0,
the verdict of a clean file.  Only a failing seek gives -1. -/
theorem C15_read_error_reported_clean :
    has_line_issues_io 8192 true ⟨[97, 10], true⟩ = some 0 ∧
    has_line_issues_io 8192 true ⟨[], true⟩ = some 0 ∧
    has_line_issues_io 8192 false ⟨[97, 10], false⟩ = some (-1) := by
  refine ⟨by decide, by decide, by decide⟩

/-! One pass of the tail collapser -/

/-- The loop of `fix_tail_issues` is its body, pass after pass. -/
theorem fix_tail_loop_step (fuel : Nat) (file : List Nat) :
    fix_tail_issues_loop (fuel + 1) file =
      match fix_tail_issues_step file with
      | tail_step.exit code => some (code, file)
      | tail_step.cut _ pos false => some (0, truncate file pos)
      | tail_step.cut _ pos true => fix_tail_issues_loop fuel (truncate file pos) := by
  rw [fix_tail_issues_loop]
  unfold fix_tail_issues_step
  simp only []
  split_ifs <;> simp_all

/-- What the backward scan over the window returns. -/
theorem scan_lf_props (buf : List Nat) (i : Nat) :
    scan_lf buf i ≤ i ∧ (∀ k, scan_lf buf i ≤ k → k < i → buf.getD k 0 = 10) ∧
      (scan_lf buf i = 0 ∨ buf.getD (scan_lf buf i - 1) 0 ≠ 10) := by
  induction i with
  | zero => simp [scan_lf]
  | succ i ih =>
    by_cases h : buf.getD i 0 = 10
    · have hs : scan_lf buf (i + 1) = scan_lf buf i := by
        simp only [scan_lf, h, ne_eq, not_true_eq_false, if_false]
      rw [hs]
      refine ⟨by omega, ?_, ih.2.2⟩
      intro k hk1 hk2
      by_cases hki : k = i
      · rw [hki]; exact h
      · exact ih.2.1 k hk1 (by omega)
    · have hs : scan_lf buf (i + 1) = i + 1 := by
        simp only [scan_lf, h, ne_eq, not_false_eq_true, if_true]
      rw [hs]
      refine ⟨le_refl _, fun k hk1 hk2 => by omega, Or.inr ?_⟩
      simpa using h

theorem getD_of_mem (l : List Nat) (c : Nat) (h : c ∈ l) :
    ∃ k, k < l.length ∧ l.getD k 0 = c := by
  obtain ⟨k, hk, hc⟩ := List.getElem_of_mem h
  exact ⟨k, hk, by rw [List.getD_eq_getElem l 0 hk]; exact hc⟩

/-- The facts behind a pass that calls `truncate`. -/
theorem fix_tail_step_cut (file : List Nat) (p q : Nat) (a : Bool)
    (h : fix_tail_issues_step file = tail_step.cut p q a) :
    ∃ i j, i = seek_window file.length 17 16 ∧
      j = scan_lf (file.drop (file.length - i)) i + 1 ∧
      i ≠ 0 ∧ i ≤ file.length ∧ j ≤ i ∧ p = file.length - (i - j) ∧
      q = (if p = 1 then 0 else p) ∧ a = decide (¬ (i ≤ 1 ∨ j > 1)) := by
  unfold fix_tail_issues_step at h
  simp only [] at h
  split_ifs at h with h1 h2 h3 h4 h5
  · simp only [tail_step.cut.injEq] at h
    obtain ⟨hp, hq, ha⟩ := h
    refine ⟨_, _, rfl, rfl, h1, seek_window_le _, by omega, hp.symm, ?_, ha.symm⟩
    subst hp
    rw [if_pos h5]; exact hq.symm
  · simp only [tail_step.cut.injEq] at h
    obtain ⟨hp, hq, ha⟩ := h
    refine ⟨_, _, rfl, rfl, h1, seek_window_le _, by omega, hp.symm, ?_, ha.symm⟩
    subst hp
    rw [if_neg h5]; exact hq.symm

/-- The bytes behind the truncation position of a pass are LFs. -/
theorem fix_tail_step_removed (file : List Nat) (p q : Nat) (a : Bool)
    (h : fix_tail_issues_step file = tail_step.cut p q a) :
    ∀ c ∈ file.drop q, c = 10 := by
  obtain ⟨i, j, hi, hj, hi0, hile, hji, hp, hq, _⟩ := fix_tail_step_cut file p q a h
  obtain ⟨_, hlf, _⟩ := scan_lf_props (file.drop (file.length - i)) i
  intro c hc
  obtain ⟨k, hk, hkc⟩ := getD_of_mem _ c hc
  rw [List.length_drop] at hk
  rw [getD_drop] at hkc
  have hw := hlf (q + k - (file.length - i)) (by split_ifs at hq <;> omega)
    (by split_ifs at hq <;> omega)
  rw [getD_drop] at hw
  have hidx : file.length - i + (q + k - (file.length - i)) = q + k := by
    split_ifs at hq <;> omega
  rw [hidx, hkc] at hw
  exact hw

/-- C16.  For every file the loop of `fix_tail_issues` terminates:
`fix_tail_issues` returns 0 with fuel of the file size plus one; the loop
is its body pass after pass; and every pass after which the loop is entered
again has a window of at least 2 bytes that are all LF and truncates the
file to a strictly smaller size. -/
theorem C16_tail_terminates (file : List Nat) :
    (∃ R, fix_tail_issues file = some (0, R)) ∧
    (∀ fuel, fix_tail_issues_loop (fuel + 1) file =
      match fix_tail_issues_step file with
      | tail_step.exit code => some (code, file)
      | tail_step.cut _ pos false => some (0, truncate file pos)
      | tail_step.cut _ pos true => fix_tail_issues_loop fuel (truncate file pos)) ∧
    (∀ p q, fix_tail_issues_step file = tail_step.cut p q true →
      (truncate file q).length < file.length ∧ 2 ≤ seek_window file.length 17 16 ∧
      ∀ c ∈ file.drop (file.length - seek_window file.length 17 16), c = 10) := by
  obtain ⟨R, hR, _⟩ := fix_tail_issues_clean file
  refine ⟨⟨R, hR⟩, fun fuel => fix_tail_loop_step fuel file, ?_⟩
  intro p q h
  obtain ⟨i, j, hi, hj, hi0, hile, hji, hp, hq, ha⟩ := fix_tail_step_cut file p q true h
  have hcond : ¬ (i ≤ 1 ∨ j > 1) := by
    have := ha.symm
    simpa using this
  obtain ⟨_, hlf, _⟩ := scan_lf_props (file.drop (file.length - i)) i
  have hqle : q ≤ file.length := by split_ifs at hq <;> omega
  refine ⟨?_, by omega, ?_⟩
  · rw [truncate_of_le file q hqle, List.length_take]
    split_ifs at hq <;> omega
  · intro c hc
    rw [← hi] at hc
    obtain ⟨k, hk, hkc⟩ := getD_of_mem _ c hc
    rw [List.length_drop] at hk
    rw [← hkc]
    exact hlf k (by omega) (by omega)

/-- C16 on three LFs: the first pass has the window of the last two bytes,
truncates to two bytes and enters the loop again. -/
theorem C16_tail_terminates_witness :
    (∃ R, fix_tail_issues [10, 10, 10] = some (0, R)) ∧
    ((truncate [10, 10, 10] 2).length < [10, 10, 10].length ∧
      2 ≤ seek_window [10, 10, 10].length 17 16 ∧
      ∀ c ∈ [10, 10, 10].drop ([10, 10, 10].length - seek_window [10, 10, 10].length 17 16),
        c = 10) :=
  ⟨(C16_tail_terminates [10, 10, 10]).1,
   (C16_tail_terminates [10, 10, 10]).2.2 2 2 (by decide)⟩

/-- C17.  In every pass of the loop of `fix_tail_issues` that calls
`truncate`: the position is at most the position found by `ftell`, which is
at most the file size; the file after the call is a prefix of the file
before it; every byte behind the position is a LF; and the position
differs from the one found by `ftell` (1 becomes 0) only when every byte of
the file is a LF. -/
theorem C17_truncation_safe (file : List Nat) (p q : Nat) (a : Bool)
    (h : fix_tail_issues_step file = tail_step.cut p q a) :
    q ≤ p ∧ p ≤ file.length ∧ truncate file q = file.take q ∧ truncate file q <+: file ∧
      truncate file q ++ file.drop q = file ∧ (∀ c ∈ file.drop q, c = 10) ∧
      (q ≠ p → p = 1 ∧ q = 0 ∧ ∀ c ∈ file, c = 10) := by
  obtain ⟨i, j, hi, hj, hi0, hile, hji, hp, hq, ha⟩ := fix_tail_step_cut file p q a h
  have hrem := fix_tail_step_removed file p q a h
  have hqp : q ≤ p := by split_ifs at hq <;> omega
  have hple : p ≤ file.length := by omega
  have htr : truncate file q = file.take q := truncate_of_le file q (by omega)
  refine ⟨hqp, hple, htr, ?_, ?_, hrem, ?_⟩
  · rw [htr]; exact List.take_prefix q file
  · rw [htr]; exact List.take_append_drop q file
  · intro hne
    have hp1 : p = 1 := by
      by_contra hcon
      rw [if_neg hcon] at hq
      exact hne hq
    have hq0 : q = 0 := by rw [hq, if_pos hp1]
    refine ⟨hp1, hq0, ?_⟩
    intro c hc
    apply hrem
    rw [hq0]
    simpa using hc

/-- C17 on two LFs: `ftell` gives 1, the file is cut at 0, and both bytes
are LFs. -/
theorem C17_truncation_safe_witness :
    truncate [10, 10] 0 <+: [10, 10] ∧ (∀ c ∈ [10, 10].drop 0, c = 10) ∧
      (∀ c ∈ [10, 10], c = 10) :=
  ⟨(C17_truncation_safe [10, 10] 1 0 true (by decide)).2.2.2.1,
   (C17_truncation_safe [10, 10] 1 0 true (by decide)).2.2.2.2.2.1,
   ((C17_truncation_safe [10, 10] 1 0 true (by decide)).2.2.2.2.2.2 (by decide)).2.2⟩

/-! The rewriter on its own output -/

/-- What has been written before the loop is entered stays in front of
what the loop writes. -/
theorem fix_loop_out (B fuel : Nat) (s out : List Nat) :
    fix_line_issues_2_loop B fuel s out =
      (fix_line_issues_2_loop B fuel s []).map (fun r => (r.1, out ++ r.2)) := by
  induction fuel generalizing s out with
  | zero => rfl
  | succ fuel ih =>
    rw [fix_line_issues_2_loop, fix_line_issues_2_loop]
    cases h : fgets B s with
    | none => simp
    | some r =>
      obtain ⟨buf, rest⟩ := r
      simp only []
      split
      · simp
      · rw [ih rest (out ++ fix_line B buf), ih rest ([] ++ fix_line B buf), Option.map_map]
        congr 1
        funext r
        simp

theorem spec_fixed_nil (B : Nat) : spec_fixed B [] := by
  intro fuel out hfuel
  obtain ⟨f, rfl⟩ : ∃ f, fuel = f + 1 := ⟨fuel - 1, by simp at hfuel; omega⟩
  rw [fix_loop_nil]; simp

/-- A run without LF and NUL that fills the buffer, in front of a file that
is written back as it is. -/
theorem spec_fixed_chunk (B : Nat) (c rest : List Nat) (hne : c ≠ []) (h10 : 10 ∉ c)
    (h0 : 0 ∉ c) (hlen : c.length = B - 1) (hrest : spec_fixed B rest) :
    spec_fixed B (c ++ rest) := by
  intro fuel out hfuel
  obtain ⟨f, rfl⟩ : ∃ f, fuel = f + 1 := ⟨fuel - 1, by omega⟩
  rw [fix_loop_long_chunk B f c rest out hne h10 h0 hlen, hrest f (out ++ c)]
  · simp
  · have := List.length_pos.2 hne
    simp only [List.length_append] at hfuel
    omega

/-- A line without LF, NUL, CR and TAB that does not end in a space, in
front of a file that is written back as it is. -/
theorem spec_fixed_line (B : Nat) (hB : 2 ≤ B) (n : Nat) (body rest : List Nat)
    (hn : body.length ≤ n) (h10 : 10 ∉ body) (h0 : 0 ∉ body) (h13 : 13 ∉ body)
    (h9 : 9 ∉ body) (hsp : body.getLast? ≠ some 32) (hrest : spec_fixed B rest) :
    spec_fixed B (body ++ 10 :: rest) := by
  induction n generalizing body with
  | zero =>
    have : body = [] := List.length_eq_zero.1 (by omega)
    subst this
    intro fuel out hfuel
    obtain ⟨f, rfl⟩ : ∃ f, fuel = f + 1 := ⟨fuel - 1, by omega⟩
    rw [fix_loop_line B f [] rest out (by simp) (by simp) (by simp; omega), spec_norm_nil,
      hrest f _ (by simp at hfuel; omega)]
    simp
  | succ n ih =>
    by_cases hlen : body.length + 1 ≤ B - 1
    · intro fuel out hfuel
      obtain ⟨f, rfl⟩ : ∃ f, fuel = f + 1 := ⟨fuel - 1, by omega⟩
      rw [fix_loop_line B f body rest out h10 h0 hlen, spec_norm_of_clean body h13 h9 hsp,
        hrest f _ (by simp at hfuel; omega)]
      simp
    · have hsplit : body ++ 10 :: rest =
          body.take (B - 1) ++ (body.drop (B - 1) ++ 10 :: rest) := by
        rw [← List.append_assoc, List.take_append_drop]
      have hclen : (body.take (B - 1)).length = B - 1 := by
        rw [List.length_take]; omega
      have hcne : body.take (B - 1) ≠ [] := by
        intro h
        rw [h] at hclen
        simp at hclen
        omega
      have hdsp : (body.drop (B - 1)).getLast? ≠ some 32 := by
        by_cases hd : body.drop (B - 1) = []
        · rw [hd]; simp
        · have h1 : body = body.take (B - 1) ++ body.drop (B - 1) :=
            (List.take_append_drop _ _).symm
          rw [h1, List.getLast?_append_of_ne_nil _ hd] at hsp
          exact hsp
      rw [hsplit]
      apply spec_fixed_chunk B _ _ hcne (fun h => h10 (List.mem_of_mem_take h))
        (fun h => h0 (List.mem_of_mem_take h)) hclen
      apply ih (body.drop (B - 1))
      · rw [List.length_drop]; omega
      · exact fun h => h10 (List.mem_of_mem_drop h)
      · exact fun h => h0 (List.mem_of_mem_drop h)
      · exact fun h => h13 (List.mem_of_mem_drop h)
      · exact fun h => h9 (List.mem_of_mem_drop h)
      · exact hdsp

/-- The normal form of a line without LF and NUL, in front of a file that is
written back as it is. -/
theorem spec_fixed_norm (B : Nat) (hB : 2 ≤ B) (l rest : List Nat) (h10 : 10 ∉ l)
    (h0 : 0 ∉ l) (hrest : spec_fixed B rest) : spec_fixed B (spec_norm l ++ rest) := by
  obtain ⟨⟨b10, _, b13, b9, bsp⟩, b0⟩ :=
    spec_norm_clean ((spec_norm l).length + 1) l h10 h0 (by simp)
  have h : spec_norm l ++ rest =
      (l.rdropWhile spec_is_ws).flatMap spec_expand_byte ++ 10 :: rest := by
    simp [spec_norm]
  rw [h]
  exact spec_fixed_line B hB _ _ rest (le_refl _) b10 b0 b13 b9 bsp hrest

/-- The rewriter returns on every file without NUL, and writes a file that
it writes back as it is. -/
theorem fix_loop_fixed (B : Nat) (hB : 2 ≤ B) (fuel : Nat) (s : List Nat)
    (hfuel : s.length < fuel) (h0 : 0 ∉ s) :
    ∃ G, fix_line_issues_2_loop B fuel s [] = some (0, G) ∧ spec_fixed B G := by
  induction fuel generalizing s with
  | zero => omega
  | succ fuel ih =>
    rcases read_cases B hB s with h | ⟨l, rest, h, hl, hlen⟩ | ⟨c, rest, h, hcne, hc, hclen⟩ |
      ⟨hne, h10, hlen⟩
    · subst h
      exact ⟨[], fix_loop_nil B fuel [], spec_fixed_nil B⟩
    · subst h
      have hl0 : 0 ∉ l := by intro h; apply h0; simp [h]
      have hr0 : 0 ∉ rest := by intro h; apply h0; simp [h]
      obtain ⟨G, hG, hfix⟩ := ih rest (by simp at hfuel; omega) hr0
      refine ⟨spec_norm l ++ G, ?_, spec_fixed_norm B hB l G hl hl0 hfix⟩
      rw [fix_loop_line B fuel l rest [] hl hl0 hlen, fix_loop_out, hG]
      simp
    · subst h
      have hc0 : 0 ∉ c := by intro h; apply h0; simp [h]
      have hr0 : 0 ∉ rest := by intro h; apply h0; simp [h]
      have hcpos : 0 < c.length := List.length_pos.2 hcne
      obtain ⟨G, hG, hfix⟩ := ih rest (by simp at hfuel; omega) hr0
      refine ⟨c ++ G, ?_, spec_fixed_chunk B c G hcne hc hc0 hclen hfix⟩
      rw [fix_loop_long_chunk B fuel c rest [] hcne hc hc0 hclen, fix_loop_out, hG]
      simp
    · have hpos : 0 < s.length := List.length_pos.2 hne
      obtain ⟨f, rfl⟩ : ∃ f, fuel = f + 1 := ⟨fuel - 1, by omega⟩
      refine ⟨spec_norm s, ?_, ?_⟩
      · rw [fix_loop_last B f s [] hne h10 h0 hlen]; simp
      · have := spec_fixed_norm B hB s [] h10 h0 (spec_fixed_nil B)
        simpa using this

/-- C18.  With `BUFSIZ` at least 2, for every file without NUL bytes,
whatever the length of its lines before and after TAB expansion:
`fix_line_issues_2` returns 0, and applied to its own output it returns 0
and writes exactly that output again. -/
theorem C18_rewriter_idempotent (B : Nat) (hB : 2 ≤ B) (F : List Nat) (h0 : 0 ∉ F) :
    ∃ G, fix_line_issues_2 B F = some (0, G) ∧ fix_line_issues_2 B G = some (0, G) := by
  obtain ⟨G, hG, hfix⟩ := fix_loop_fixed B hB (F.length + 1) F (by simp) h0
  refine ⟨G, hG, ?_⟩
  have := hfix (G.length + 1) [] (by simp)
  simpa [fix_line_issues_2] using this

/-- C18 at `BUFSIZ = 8192` on `TAB a CR TAB b TAB space LF space LF b`. -/
theorem C18_rewriter_idempotent_witness :
    ∃ G, fix_line_issues_2 8192 [9, 97, 13, 9, 98, 9, 32, 10, 32, 10, 98] = some (0, G) ∧
      fix_line_issues_2 8192 G = some (0, G) :=
  C18_rewriter_idempotent 8192 (by decide) [9, 97, 13, 9, 98, 9, 32, 10, 32, 10, 98]
    (by decide)

/-! Files that the rewrite leaves as they are -/

theorem spec_lines_join (ls : List (List Nat)) (h : ∀ l ∈ ls, 10 ∉ l) :
    spec_lines (spec_join ls) = ls := by
  induction ls with
  | nil => rfl
  | cons l ls ih =>
    rw [spec_join_cons, spec_lines_line l _ (h l (by simp)),
      ih (fun l1 h1 => h l1 (by simp [h1]))]

/-- A file without NUL whose lines fit into one read and that is its own
rewrite has no line issue. -/
theorem has_line_issues_of_rewrite_eq (B : Nat) (F : List Nat) (h0 : 0 ∉ F)
    (hin : ∀ l ∈ spec_lines F, l.length + 1 ≤ B - 1) (heq : spec_rewrite F = F) :
    has_line_issues B F = some 0 := by
  have hjoin := spec_rewrite_eq_join F
  rw [heq] at hjoin
  have hbody : ∀ b ∈ (spec_lines F).map
      (fun l => (l.rdropWhile spec_is_ws).flatMap spec_expand_byte),
      spec_clean_line (b.length + 2) b ∧ 0 ∉ b := by
    intro b hb
    obtain ⟨l, hl, rfl⟩ := List.mem_map.1 hb
    apply spec_norm_clean _ l
    · intro h; exact (spec_lines_mem F l hl 10 h).2 rfl
    · intro h; exact h0 (spec_lines_mem F l hl 0 h).1
    · simp [spec_norm]
  have hlines : spec_lines F = (spec_lines F).map
      (fun l => (l.rdropWhile spec_is_ws).flatMap spec_expand_byte) := by
    conv_lhs => rw [hjoin]
    exact spec_lines_join _ (fun b hb => (hbody b hb).1.1)
  have hcl : ∀ b ∈ (spec_lines F).map
      (fun l => (l.rdropWhile spec_is_ws).flatMap spec_expand_byte),
      spec_clean_line B b ∧ 0 ∉ b := by
    intro b hb
    obtain ⟨⟨b10, _, b13, b9, bsp⟩, b0⟩ := hbody b hb
    have hlen : b.length + 1 ≤ B - 1 := hin b (by rw [hlines]; exact hb)
    exact ⟨⟨b10, hlen, b13, b9, bsp⟩, b0⟩
  unfold has_line_issues
  conv_lhs => rw [hjoin]
  exact has_line_loop_clean B _ _ hcl (by rw [← hjoin]; simp)

/-! An unterminated last line that fills the buffer -/

/-- One bounded read returns an unterminated line of `BUFSIZ - 1` letters
whole and leaves nothing unread. -/
theorem full_line_read (B : Nat) (hB : 2 ≤ B) :
    fgets B (List.replicate (B - 1) 97) = some (List.replicate (B - 1) 97, []) := by
  have hne : List.replicate (B - 1) 97 ≠ [] := by
    intro h
    have := congrArg List.length h
    simp at this; omega
  rw [fgets_of_ne_nil B _ hne,
    fgets_copy_last _ (B - 1) (replicate_no_mem _ _ _ (by omega)) (by simp)]

/-- The line detector fires on an unterminated line of `BUFSIZ - 1` letters. -/
theorem full_line_detect (B : Nat) (hB : 2 ≤ B) :
    has_line_issues B (List.replicate (B - 1) 97) = some 1 := by
  have hne : List.replicate (B - 1) 97 ≠ [] := by
    intro h
    have := congrArg List.length h
    simp at this; omega
  apply has_line_loop_no_lf B _ _ hne (replicate_no_mem _ _ _ (by omega))
  rw [fgets_copy_last _ (B - 1) (replicate_no_mem _ _ _ (by omega)) (by simp)]
  exact replicate_no_mem _ _ _ (by omega)

theorem full_line_tail (k : Nat) : has_tail_issues (List.replicate (k + 1) 97) = 0 := by
  apply has_tail_issues_no_lf
  rw [(replicate_succ_last k 97).1]
  simp

/-- The pipeline reports `changed` on an unterminated line of `BUFSIZ - 1`
letters, and leaves the same bytes. -/
theorem full_line_pepclean (B : Nat) (hB : 2 ≤ B) :
    pepclean B (List.replicate (B - 1) 97) = some (1, List.replicate (B - 1) 97) := by
  apply pepclean_line B _ _ (full_line_detect B hB)
  · obtain ⟨k, hk⟩ : ∃ k, B - 1 = k + 1 := ⟨B - 2, by omega⟩
    rw [hk]; exact full_line_tail k
  · exact fix_line_issues_of_loop B _ _ (full_line_fix B hB)

/-- An unterminated run of letters is one line, as long as the run. -/
theorem full_line_lines (k : Nat) (l : List Nat)
    (hl : l ∈ spec_lines (List.replicate (k + 1) 97)) : l.length = k + 1 := by
  rw [spec_lines_last _ (replicate_no_mem _ _ _ (by omega)) (replicate_succ_last k 97).2] at hl
  rw [List.mem_singleton] at hl
  rw [hl, List.length_replicate]

/-- C19, refuted as stated.  With `BUFSIZ = 8192` the file of 8191 letters
without LF has no NUL byte, its one line has 8191 bytes, which is
`BUFSIZ - 1`, and one bounded read returns it whole.  The line detector
fires on it, for the read does not end in LF; the rewriter writes a read of
`BUFSIZ - 1` bytes without LF back as it is.  So `pepclean` returns 1 and
the bytes it leaves are those of the file. -/
theorem C19_counterexample :
    0 ∉ List.replicate 8191 97 ∧
    (∀ l ∈ spec_lines (List.replicate 8191 97), l.length ≤ 8192 - 1) ∧
    fgets 8192 (List.replicate 8191 97) = some (List.replicate 8191 97, []) ∧
    pepclean 8192 (List.replicate 8191 97) = some (1, List.replicate 8191 97) ∧
    ¬ (∀ r G, pepclean 8192 (List.replicate 8191 97) = some (r, G) → r = 1 →
        G ≠ List.replicate 8191 97) :=
  ⟨replicate_no_mem _ _ _ (by norm_num),
   fun l hl => le_of_eq (full_line_lines 8190 l hl),
   full_line_read 8192 (by norm_num),
   full_line_pepclean 8192 (by norm_num),
   fun h => h 1 _ (full_line_pepclean 8192 (by norm_num)) rfl rfl⟩

/-- C19, amended.  For every file without NUL bytes in which every line
fits into one bounded read (at most `BUFSIZ - 1` bytes with its LF, an
unterminated last line having fewer than `BUFSIZ - 1` bytes): `pepclean`
returns 0 or 1; when it returns 1 the bytes it leaves differ from those of
the file; it returns 0 exactly when the bytes are left identical. -/
theorem C19_changed_means_changed (B : Nat) (F : List Nat) (h0 : 0 ∉ F)
    (hin : ∀ l ∈ spec_lines F, l.length + 1 ≤ B - 1) :
    ∃ r G, pepclean B F = some (r, G) ∧ (r = 0 ∨ r = 1) ∧ (r = 1 → G ≠ F) ∧
      (r = 0 ↔ G = F) := by
  have hfix : fix_line_issues B F = some (0, spec_rewrite F) :=
    fix_line_issues_of_loop B F _ (fix_line_issues_2_ref B F h0 hin)
  obtain ⟨R, hR, hRT, _⟩ := fix_tail_issues_clean F
  obtain ⟨R2, hR2, hR2T, _⟩ := fix_tail_issues_clean (spec_rewrite F)
  rcases has_line_issues_total B F with hL | hL <;>
    rcases has_tail_issues_total F with hT | hT
  · exact ⟨0, F, pepclean_clean B F hL hT, Or.inl rfl, by simp, by simp⟩
  · have hne : R ≠ F := by
      intro h
      rw [h, hT] at hRT
      omega
    exact ⟨1, R, pepclean_tail B F R hL hT hR, Or.inr rfl, fun _ => hne, by simp [hne]⟩
  · have hne : spec_rewrite F ≠ F := by
      intro h
      have := has_line_issues_of_rewrite_eq B F h0 hin h
      rw [hL] at this
      simp at this
    exact ⟨1, spec_rewrite F, pepclean_line B F _ hL hT hfix, Or.inr rfl, fun _ => hne,
      by simp [hne]⟩
  · have hne : R2 ≠ F := by
      intro h
      rw [h, hT] at hR2T
      omega
    exact ⟨1, R2, pepclean_both B F _ R2 hL hT hfix hR2, Or.inr rfl, fun _ => hne,
      by simp [hne]⟩

/-- C19, amended, at `BUFSIZ = 8192` on `a space LF`. -/
theorem C19_changed_means_changed_witness :
    ∃ r G, pepclean 8192 [97, 32, 10] = some (r, G) ∧ (r = 0 ∨ r = 1) ∧
      (r = 1 → G ≠ [97, 32, 10]) ∧ (r = 0 ↔ G = [97, 32, 10]) :=
  C19_changed_means_changed 8192 [97, 32, 10] (by decide) (by decide)

/-! Array indices written by the rewriter -/

theorem scan_ws_lt (line : List Nat) (n i : Nat) (h : scan_ws line n = some i) : i < n := by
  induction n with
  | zero => simp [scan_ws] at h
  | succ n ih =>
    rw [scan_ws] at h
    split_ifs at h
    · have : n = i := by simpa using h
      omega
    · have := ih h
      omega

/-- The byte-by-byte pass writes no index of `outbuf` beyond the length of
the string plus 8. -/
theorem expand_loop_writes_le (s : List Nat) (pout k : Nat)
    (h : k ∈ expand_loop_writes s pout) : k ≤ pout + s.length + 8 := by
  induction s generalizing pout with
  | nil =>
    simp only [expand_loop_writes, List.mem_singleton] at h
    omega
  | cons c s ih =>
    rw [expand_loop_writes] at h
    split_ifs at h
    · have := ih pout h
      simp only [List.length_cons]
      omega
    · rcases List.mem_append.1 h with h1 | h1
      · rw [List.mem_range'_1] at h1
        simp only [List.length_cons]
        omega
      · have := ih 0 h1
        simp only [List.length_cons]
        omega
    · rcases List.mem_cons.1 h with h1 | h1
      · omega
      · have := ih (pout + 1) h1
        simp only [List.length_cons]
        omega

/-- The indices written in one iteration for a buffer of at most
`BUFSIZ - 1` bytes. -/
theorem fix_line_writes_le (B : Nat) (inbuf : List Nat) (hlen : inbuf.length ≤ B - 1) :
    (∀ k ∈ (fix_line_writes B inbuf).1, k ≤ B) ∧
      (∀ k ∈ (fix_line_writes B inbuf).2, k ≤ B + 8) := by
  have hs : strlen inbuf ≤ B - 1 := le_trans (strlen_le inbuf) hlen
  unfold fix_line_writes
  simp only []
  split_ifs with h1 h2 h3 h4
  · simp
  · -- missing LF, single LF afterwards
    refine ⟨fun k hk => ?_, by simp⟩
    simp only [List.mem_singleton] at hk
    omega
  · -- missing LF
    have hll : (List.take (strlen inbuf) inbuf ++ [10]).length ≤ B := by
      simp only [List.length_append, List.length_take, List.length_singleton]
      omega
    split
    · refine ⟨fun k hk => ?_, by simp⟩
      simp only [List.mem_singleton] at hk
      omega
    · next i hi =>
      have hlt := scan_ws_lt _ _ _ hi
      have hw : ∀ k ∈ [strlen inbuf] ++ [i + 1, i + 2], k ≤ B := by
        intro k hk
        simp only [List.mem_append, List.mem_singleton, List.mem_cons, List.not_mem_nil,
          or_false] at hk
        omega
      split_ifs
      · exact ⟨hw, by simp⟩
      · refine ⟨hw, fun k hk => ?_⟩
        have := expand_loop_writes_le _ 0 k hk
        simp only [List.length_append, List.length_take, List.length_singleton] at this hll
        omega
  · simp
  · have hll : (List.take (strlen inbuf) inbuf).length ≤ B := by
      simp only [List.length_take]
      omega
    split
    · simp
    · next i hi =>
      have hlt := scan_ws_lt _ _ _ hi
      have hw : ∀ k ∈ [] ++ [i + 1, i + 2], k ≤ B := by
        intro k hk
        simp only [List.nil_append, List.mem_cons, List.mem_singleton, List.not_mem_nil,
          or_false] at hk
        omega
      split_ifs
      · exact ⟨hw, by simp⟩
      · refine ⟨hw, fun k hk => ?_⟩
        have h5 : (List.take (i + 1) (List.take (strlen inbuf) inbuf)).length ≤ i + 1 :=
          List.length_take_le _ _
        have := expand_loop_writes_le _ 0 k hk
        simp only [List.length_append, List.length_singleton] at this
        omega

/-- C20.  For every buffer that the bounded read `fgets(inbuf, BUFSIZ, in)`
returns: it holds at most `BUFSIZ - 1` bytes, every index of `inbuf`
written afterwards in the iteration is at most `BUFSIZ`, and every index of
`outbuf` written in the byte-by-byte pass is at most `BUFSIZ + 8`. -/
theorem C20_buffer_bounds (B : Nat) (stream buf rest : List Nat)
    (h : fgets B stream = some (buf, rest)) :
    buf.length ≤ B - 1 ∧ (∀ k ∈ (fix_line_writes B buf).1, k ≤ B) ∧
      (∀ k ∈ (fix_line_writes B buf).2, k ≤ B + 8) := by
  have hlen : buf.length ≤ B - 1 := by
    cases stream with
    | nil => simp [fgets] at h
    | cons c s =>
      simp only [fgets, Option.some.injEq] at h
      have := fgets_copy_length_le (c :: s) (B - 1)
      rw [h] at this
      exact this
  exact ⟨hlen, fix_line_writes_le B buf hlen⟩

/-- C20 at `BUFSIZ = 8192` on the line `a TAB b space LF`. -/
theorem C20_buffer_bounds_witness :
    [97, 9, 98, 32, 10].length ≤ 8192 - 1 ∧
      (∀ k ∈ (fix_line_writes 8192 [97, 9, 98, 32, 10]).1, k ≤ 8192) ∧
      (∀ k ∈ (fix_line_writes 8192 [97, 9, 98, 32, 10]).2, k ≤ 8192 + 8) :=
  C20_buffer_bounds 8192 [97, 9, 98, 32, 10] [97, 9, 98, 32, 10] [] (by decide)

/-! Idempotence of the pipeline -/

end Pepclean
